/-
  Verification of the nis-backend flow-graph solver core.

  Shallow embedding of:
  * `backend/solving/graph/flow_graph.py` (FlowGraph.analyze_and_complete,
    FlowGraph.get_computation_graph),
  * `backend/solving/flow_graph_solver.py` (evaluate_parameters_for_scenario,
    get_circular_dependencies, create_scales_graph, set_update_scales_graph,
    and the per-scenario weight-resolution passes of flow_graph_solver).

  Python floats are modelled as rationals (ℚ); Python truthiness of a numeric
  value (`if not value`) is modelled explicitly (`none` and `some 0` are falsy).
  Python `raise` is modelled with `Except`.  Dictionaries created by
  `create_dictionary()` are case-insensitive (the global `case_sensitive` flag
  of `backend/__init__.py` is `False`); they are modelled as association lists
  keyed by the lower-cased key while remembering the cased key, exactly like
  `CaseInsensitiveDict` of `backend/common/helper.py` (whose iteration yields
  the *cased* keys).
-/
import Mathlib

namespace NisBackend

/-! ## Nodes and edges of the flow graph -/

/-- A graph node: the propagation engine treats interfaces as opaque string
identities (`"<processor>:<interface>"`). -/
abbrev Node := String

/-- One directed edge of one of the two `nx.DiGraph`s held by `FlowGraph`,
with its `weight` attribute (`None` modelled as `none`). -/
structure FEdge where
  src : Node
  dst : Node
  w : Option ℚ
deriving DecidableEq, Repr

/-- `FlowGraph` of `flow_graph.py`: a "direct" graph and a "reverse" graph
over the same nodes (the reverse graph holds every edge inverted, with an
independent weight). -/
structure FlowGraph where
  direct : List FEdge
  reverse : List FEdge
deriving DecidableEq, Repr

/-- Python truthiness of an optional numeric weight: `None` and `0.0` are
falsy (`if not e[2]['weight']`, `if opposite_weight:`). -/
def wTruthy : Option ℚ → Bool
  | none => false
  | some q => q != 0

/-- `nx.DiGraph.add_edge u v weight=w`: update the attribute if the edge is
present, otherwise append the edge (insertion order is kept). -/
def addDirected (es : List FEdge) (u v : Node) (w : Option ℚ) : List FEdge :=
  if es.any (fun e => e.src == u && e.dst == v) then
    es.map (fun e => if e.src == u && e.dst == v then { e with w := w } else e)
  else
    es ++ [⟨u, v, w⟩]

/-- `FlowGraph.add_edge`: adds the edge to the direct graph and its reversal
to the reverse graph. -/
def FlowGraph.addEdge (fg : FlowGraph) (u v : Node) (w rw : Option ℚ) : FlowGraph :=
  { direct := addDirected fg.direct u v w
    reverse := addDirected fg.reverse v u rw }

/-- `FlowGraph.__init__(graph)`: every edge of the given digraph is added with
its weight and a `None` reverse weight. -/
def FlowGraph.ofDiGraph (es : List (Node × Node × Option ℚ)) : FlowGraph :=
  es.foldl (fun fg e => fg.addEdge e.1 e.2.1 e.2.2 none) ⟨[], []⟩

/-- `graph.out_edges(n, data=True)`: the edges leaving `n`, in insertion
order. -/
def outEdges (es : List FEdge) (n : Node) : List FEdge :=
  es.filter (fun e => e.src == n)

/-- `opposite_graph[v][u]["weight"]`: the weight attribute of edge `v → u` of
the opposite graph (the edge always exists because `add_edge` inserts the two
directions in pairs; a missing edge is modelled as weight `none`). -/
def lookupW (es : List FEdge) (v u : Node) : Option ℚ :=
  match es.find? (fun e => e.src == v && e.dst == u) with
  | some e => e.w
  | none => none

/-- The node set of an edge list, in first-appearance order. -/
def nodesOf (es : List FEdge) : List Node :=
  (es.foldl (fun acc e => acc ++ [e.src, e.dst]) []).dedup

/-! ### Cycle detection (`nx.algorithms.dag.is_directed_acyclic_graph`) -/

/-- Successors of `n` in a plain edge-pair list. -/
def succsP (es : List (Node × Node)) (n : Node) : List Node :=
  (es.filter (fun e => e.1 == n)).map (fun e => e.2)

/-- One round of closure expansion: add every successor of the current set. -/
def stepClose (es : List (Node × Node)) (cur : List Node) : List Node :=
  (cur ++ cur.flatMap (succsP es)).dedup

/-- All nodes reachable from `start` (in ≥ 0 steps along edges of `es`),
computed by iterating the one-step expansion enough times to stabilise. -/
def reachList (es : List (Node × Node)) (start : List Node) : List Node :=
  (stepClose es)^[es.length + 1] start

/-- Whether a plain directed-edge list contains a directed cycle: some node
reaches itself in at least one step. -/
def hasCycleEdges (es : List (Node × Node)) : Bool :=
  (es.map (fun e => e.1)).any (fun n => (reachList es (succsP es n)).contains n)

/-- Whether the direct graph of a `FlowGraph` contains a directed cycle
(the meaning of `not nx.algorithms.dag.is_directed_acyclic_graph`). -/
def hasCycleB (es : List FEdge) : Bool :=
  hasCycleEdges (es.map (fun e => (e.src, e.dst)))

/-! ### Issues (`Issue`, `IType` of flow_graph.py) -/

/-- Severity of an issue. -/
inductive IType where
  | INFO
  | WARNING
  | ERROR
deriving DecidableEq, Repr

/-- The issues produced by `FlowGraph.analyze_and_complete`, keyed by which
message they carry. -/
inductive Issue where
  /-- "The graph contains cycles" -/
  | cycleError
  /-- "The following edges don't have a weight: …" -/
  | missingWeights (es : List (Node × Node))
  /-- "The weight of single output edge … could be inferred from opposite
  weight …" -/
  | inferredOpposite (u v : Node)
  /-- "The weight of single output edge … could be inferred without opposite
  weight" -/
  | inferredNoOpposite (u v : Node)
  /-- "The weight of edge … cannot be inferred, the sum of other weights is
  >= 1.0 …" -/
  | cannotInferSum (u v : Node)
  /-- "The weight of edge … could be inferred from the sum of other weights" -/
  | inferredFromSum (u v : Node)
deriving DecidableEq, Repr

/-- The `IType` of each issue, as constructed in `analyze_and_complete`. -/
def Issue.itype : Issue → IType
  | .cycleError => .ERROR
  | .missingWeights _ => .WARNING
  | .inferredOpposite _ _ => .INFO
  | .inferredNoOpposite _ _ => .INFO
  | .cannotInferSum _ _ => .WARNING
  | .inferredFromSum _ _ => .INFO

/-! ### Weight completion (`analyze_and_complete`) -/

/-- `math.isclose(a, b)` with the default tolerances
(`rel_tol = 1e-9`, `abs_tol = 0.0`):
`abs(a-b) <= max(rel_tol * max(abs(a), abs(b)), abs_tol)`. -/
def isclose (a b : ℚ) : Bool :=
  |a - b| ≤ (1 / 1000000000) * max |a| |b|

/-- Sum of the truthy weights of a list of edges
(`reduce(add, [e[2]['weight'] for e in all_edges if e[2]['weight']])`). -/
def sumTruthy (es : List FEdge) : ℚ :=
  ((es.filter (fun e => wTruthy e.w)).map (fun e => e.w.getD 0)).sum

/-- Sum of all weights of a list of edges
(`reduce(add, [e[2]['weight'] for e in all_edges])`; used only when every
weight is truthy, hence `getD 0` never fires). -/
def sumAll (es : List FEdge) : ℚ :=
  (es.map (fun e => e.w.getD 0)).sum

/-- The per-node step of `analyze_and_complete`, computed from the node's
out-edges in the graph being processed and from the opposite graph: returns
`(optional weight assignment (src, dst, new weight), split flag, issues)`.
The split flag is the net effect of `graph.nodes[n]['split'] = False` followed
by the branch possibly setting it to `True`. -/
def nodeAction (opp : List FEdge) (outE : List FEdge) :
    Option (Node × Node × ℚ) × Bool × List Issue :=
  if outE.isEmpty then (none, false, [])
  else
    let ew := outE.filter (fun e => !wTruthy e.w)
    if ew.length > 1 then
      (none, false, [.missingWeights (ew.map (fun e => (e.src, e.dst)))])
    else if ew.length == 1 then
      if outE.length == 1 then
        match outE with
        | [e] =>
          match lookupW opp e.dst e.src with
          | some q =>
            if q != 0 then
              (some (e.src, e.dst, 1 / q), false, [.inferredOpposite e.src e.dst])
            else
              (some (e.src, e.dst, 1), false, [.inferredNoOpposite e.src e.dst])
          | none => (some (e.src, e.dst, 1), false, [.inferredNoOpposite e.src e.dst])
        | _ => (none, false, [])
      else
        let s := sumTruthy outE
        match ew with
        | e :: _ =>
          if s > 1 then (none, false, [.cannotInferSum e.src e.dst])
          else (some (e.src, e.dst, 1 - s), true, [.inferredFromSum e.src e.dst])
        | [] => (none, false, [])
    else if outE.length > 1 then
      (none, isclose (sumAll outE) 1, [])
    else
      (none, false, [])

/-- Apply the optional weight assignment produced by `nodeAction`
(`edge[2]['weight'] = …` mutates the given edge's attribute dictionary). -/
def applyAsgn (es : List FEdge) : Option (Node × Node × ℚ) → List FEdge
  | none => es
  | some (u, v, q) =>
      es.map (fun e => if e.src == u && e.dst == v then { e with w := some q } else e)

/-- Set the `split` node attribute in an association list (one entry per
processed node). -/
def setSplit (sp : List (Node × Bool)) (n : Node) (b : Bool) : List (Node × Bool) :=
  if sp.any (fun p => p.1 == n) then
    sp.map (fun p => if p.1 == n then (n, b) else p)
  else
    sp ++ [(n, b)]

/-- Look up the `split` attribute of a node. -/
def getSplit (sp : List (Node × Bool)) (n : Node) : Option Bool :=
  (sp.find? (fun p => p.1 == n)).map (fun p => p.2)

/-- The evolving state of one completion pass over one of the two graphs. -/
structure PassState where
  edges : List FEdge
  split : List (Node × Bool)
  issues : List Issue
deriving DecidableEq, Repr

/-- Processing of a single node of the topological order inside
`analyze_and_complete` (the body of `for n in topological_sort(graph)`). -/
def processNode (opp : List FEdge) (st : PassState) (n : Node) : PassState :=
  let r := nodeAction opp (outEdges st.edges n)
  { edges := applyAsgn st.edges r.1
    split := setSplit st.split n r.2.1
    issues := st.issues ++ r.2.2 }

/-- One full completion pass over a graph (the inner loop of
`analyze_and_complete`), processing the nodes in the given order. -/
def runPass (opp : List FEdge) (order : List Node) (st : PassState) : PassState :=
  order.foldl (processNode opp) st

/-- The outcome of `analyze_and_complete`: the issue list plus the final
state of the two graphs (the Python method mutates `self`). -/
structure AnalysisResult where
  issues : List Issue
  direct : List FEdge
  reverse : List FEdge
  dsplit : List (Node × Bool)
  rsplit : List (Node × Bool)
deriving DecidableEq, Repr

/-- `FlowGraph.analyze_and_complete`.  If the direct graph has a cycle it
returns just the ERROR issue, leaving both graphs untouched.  Otherwise it
runs the completion pass first over the direct graph (with the reverse graph
as opposite) and then over the reverse graph (with the *updated* direct graph
as opposite).  `orderD` / `orderR` stand for the topological orders that
`nx.algorithms.dag.topological_sort` produces for the two graphs. -/
def analyzeAndComplete (fg : FlowGraph) (orderD orderR : List Node) : AnalysisResult :=
  if hasCycleB fg.direct then
    { issues := [.cycleError]
      direct := fg.direct
      reverse := fg.reverse
      dsplit := []
      rsplit := [] }
  else
    let p1 := runPass fg.reverse orderD ⟨fg.direct, [], []⟩
    let p2 := runPass p1.edges orderR ⟨fg.reverse, [], []⟩
    { issues := p1.issues ++ p2.issues
      direct := p1.edges
      reverse := p2.edges
      dsplit := p1.split
      rsplit := p2.split }

/-- The data handed to the `ComputationGraph` under construction by
`FlowGraph._create_computation_graph`: one edge per direct edge carrying both
weights, plus the split marks of both graphs.  (The `ComputationGraph` class
itself lives in `computation_graph.py`, outside the analysed sources; only
the payload passed to it is modelled.) -/
structure CompGraph where
  edges : List (Node × Node × Option ℚ × Option ℚ)
  dsplit : List (Node × Bool)
  rsplit : List (Node × Bool)
deriving DecidableEq, Repr

/-- `FlowGraph._create_computation_graph` applied to the completed graphs. -/
def mkCompGraph (r : AnalysisResult) : CompGraph :=
  { edges := r.direct.map (fun e => (e.src, e.dst, e.w, lookupW r.reverse e.dst e.src))
    dsplit := r.dsplit
    rsplit := r.rsplit }

/-- `FlowGraph.get_computation_graph`: analyze and complete, and return `None`
together with the issues when an ERROR issue occurred. -/
def getComputationGraph (fg : FlowGraph) (orderD orderR : List Node) :
    Option CompGraph × List Issue :=
  let r := analyzeAndComplete fg orderD orderR
  if r.issues.any (fun i => i.itype == .ERROR) then
    (none, r.issues)
  else
    (some (mkCompGraph r), r.issues)

/-! ### Structural lemmas about the completion pass

Within one pass, processing a node touches only that node's out-edges, its
own `split` attribute, and appends issues; these frame lemmas let us read off
the final state of a node from its initial out-edges alone. -/

lemma mem_outEdges_src {es : List FEdge} {n : Node} {e : FEdge}
    (he : e ∈ outEdges es n) : e.src = n := by
  simp only [outEdges, List.mem_filter, beq_iff_eq] at he
  exact he.2

lemma outEdges_map_preserve (es : List FEdge) (f : FEdge → FEdge)
    (hf : ∀ e, (f e).src = e.src) (n : Node) :
    outEdges (es.map f) n = (outEdges es n).map f := by
  induction es with
  | nil => rfl
  | cons e es ih =>
    simp only [List.map_cons, outEdges, List.filter_cons] at *
    by_cases hs : e.src = n
    · simp only [hs, hf e, beq_self_eq_true, if_pos, List.map_cons]
      rw [← ih]
    · have h1 : ((f e).src == n) = false := by simp [hf e, hs]
      have h2 : (e.src == n) = false := by simp [hs]
      simp only [h1, h2, Bool.false_eq_true, if_false]
      exact ih

lemma applyAsgn_outEdges (es : List FEdge) (u v : Node) (q : ℚ) (n : Node) :
    outEdges (applyAsgn es (some (u, v, q))) n =
      if u = n then applyAsgn (outEdges es n) (some (u, v, q))
      else outEdges es n := by
  unfold applyAsgn
  rw [outEdges_map_preserve]
  · by_cases hu : u = n
    · simp [hu]
    · simp only [hu, if_false]
      have : ∀ e ∈ outEdges es n,
          (if e.src == u && e.dst == v then { e with w := some q } else e) = e := by
        intro e he
        have hs := mem_outEdges_src he
        have : (e.src == u) = false := by simp [hs]; exact fun hh => hu hh.symm
        simp [this]
      calc (outEdges es n).map _ = (outEdges es n).map id := List.map_congr_left this
        _ = outEdges es n := List.map_id _
  · intro e
    by_cases h : e.src == u && e.dst == v <;> simp [h]

lemma nodeAction_src (opp : List FEdge) (outE : List FEdge) (u v : Node) (q : ℚ)
    (h : (nodeAction opp outE).1 = some (u, v, q)) :
    ∃ e ∈ outE, u = e.src ∧ v = e.dst := by
  unfold nodeAction at h
  by_cases h0 : outE.isEmpty
  · simp [h0] at h
  · simp only [h0, Bool.false_eq_true, if_false] at h
    by_cases h1 : (outE.filter (fun e => !wTruthy e.w)).length > 1
    · simp [h1] at h
    · simp only [h1, if_false] at h
      by_cases h2 : (outE.filter (fun e => !wTruthy e.w)).length = 1
      · have h2' : ((outE.filter (fun e => !wTruthy e.w)).length == 1) = true := by
          simp [h2]
        simp only [h2', if_true] at h
        by_cases h3 : outE.length = 1
        · have h3' : (outE.length == 1) = true := by simp [h3]
          simp only [h3', if_true] at h
          obtain ⟨e, he⟩ := List.length_eq_one.mp h3
          subst he
          cases hlw : lookupW opp e.dst e.src with
          | none =>
            simp only [hlw, Option.some.injEq, Prod.mk.injEq] at h
            exact ⟨e, List.mem_singleton_self e, h.1.symm ▸ rfl, h.2.1.symm ▸ rfl⟩
          | some w =>
            simp only [hlw] at h
            by_cases hw : w = 0
            · have hw' : (w != 0) = false := by simp [hw]
              simp only [hw', Bool.false_eq_true, if_false, Option.some.injEq,
                Prod.mk.injEq] at h
              exact ⟨e, List.mem_singleton_self e, h.1.symm, h.2.1.symm⟩
            · have hw' : (w != 0) = true := by simp [hw]
              simp only [hw', if_true, Option.some.injEq, Prod.mk.injEq] at h
              exact ⟨e, List.mem_singleton_self e, h.1.symm, h.2.1.symm⟩
        · have h3' : (outE.length == 1) = false := by simp [h3]
          simp only [h3', Bool.false_eq_true, if_false] at h
          cases hew : outE.filter (fun e => !wTruthy e.w) with
          | nil => rw [hew] at h2; simp at h2
          | cons e rest =>
            have hmem : e ∈ outE :=
              (List.mem_filter.mp (hew ▸ List.mem_cons_self e rest)).1
            simp only [hew] at h
            by_cases hs : sumTruthy outE > 1
            · simp [hs] at h
            · simp only [hs, if_false, Option.some.injEq, Prod.mk.injEq] at h
              exact ⟨e, hmem, h.1.symm ▸ rfl, h.2.1.symm ▸ rfl⟩
      · have h2' : ((outE.filter (fun e => !wTruthy e.w)).length == 1) = false := by
          simp [h2]
        simp only [h2', Bool.false_eq_true, if_false] at h
        by_cases h4 : outE.length > 1 <;> simp [h4] at h

lemma find_update_self (sp : List (Node × Bool)) (m : Node) (b : Bool) :
    (sp.map (fun p => if p.1 == m then (m, b) else p)).find? (fun p => p.1 == m) =
      (sp.find? (fun p => p.1 == m)).map (fun _ => (m, b)) := by
  induction sp with
  | nil => rfl
  | cons p sp ih =>
    by_cases hp : p.1 = m
    · have h1 : (p.1 == m) = true := by simp [hp]
      simp only [List.map_cons, h1, if_true]
      rw [List.find?_cons_of_pos _ (by simp)]
      simp [List.find?_cons, h1]
    · have h1 : (p.1 == m) = false := by simp [hp]
      simp only [List.map_cons, h1, Bool.false_eq_true, if_false]
      rw [List.find?_cons_of_neg _ (by simp [h1]), List.find?_cons_of_neg _ (by simp [h1])]
      exact ih

lemma find_append_one (sp : List (Node × Bool)) (m : Node) (b : Bool)
    (h : sp.any (fun p => p.1 == m) = false) :
    (sp ++ [(m, b)]).find? (fun p => p.1 == m) = some (m, b) := by
  induction sp with
  | nil =>
    simp only [List.nil_append]
    rw [List.find?_cons_of_pos _ (by simp)]
  | cons p sp ih =>
    simp only [List.any_cons, Bool.or_eq_false_iff] at h
    rw [List.cons_append, List.find?_cons_of_neg _ (by simp [h.1])]
    exact ih h.2

lemma find_update_ne (sp : List (Node × Bool)) (m n : Node) (b : Bool)
    (hmn : m ≠ n) :
    (sp.map (fun p => if p.1 == m then (m, b) else p)).find? (fun p => p.1 == n) =
      sp.find? (fun p => p.1 == n) := by
  induction sp with
  | nil => rfl
  | cons p sp ih =>
    by_cases hp : p.1 = m
    · have h1 : (p.1 == m) = true := by simp [hp]
      have h2 : (p.1 == n) = false := by simp [hp, hmn]
      simp only [List.map_cons, h1, if_true]
      rw [List.find?_cons_of_neg _ (by simp [hmn]), List.find?_cons_of_neg _ (by simp [h2])]
      exact ih
    · have h1 : (p.1 == m) = false := by simp [hp]
      simp only [List.map_cons, h1, Bool.false_eq_true, if_false]
      by_cases hq : p.1 = n
      · rw [List.find?_cons_of_pos _ (by simp [hq]), List.find?_cons_of_pos _ (by simp [hq])]
      · rw [List.find?_cons_of_neg _ (by simp [hq]), List.find?_cons_of_neg _ (by simp [hq])]
        exact ih

lemma find_append_ne (sp : List (Node × Bool)) (m n : Node) (b : Bool)
    (hmn : m ≠ n) :
    (sp ++ [(m, b)]).find? (fun p => p.1 == n) = sp.find? (fun p => p.1 == n) := by
  induction sp with
  | nil =>
    simp only [List.nil_append]
    rw [List.find?_cons_of_neg _ (by simp [hmn])]
  | cons p sp ih =>
    by_cases hq : p.1 = n
    · rw [List.cons_append, List.find?_cons_of_pos _ (by simp [hq]),
        List.find?_cons_of_pos _ (by simp [hq])]
    · rw [List.cons_append, List.find?_cons_of_neg _ (by simp [hq]),
        List.find?_cons_of_neg _ (by simp [hq])]
      exact ih

lemma getSplit_setSplit_self (sp : List (Node × Bool)) (n : Node) (b : Bool) :
    getSplit (setSplit sp n b) n = some b := by
  unfold setSplit getSplit
  by_cases hmem : sp.any (fun p => p.1 == n) = true
  · rw [if_pos hmem, find_update_self]
    cases hfind : sp.find? (fun p => p.1 == n) with
    | none =>
      obtain ⟨p, hp, hpn⟩ := List.any_eq_true.mp hmem
      rw [List.find?_eq_none] at hfind
      exact absurd hpn (by simpa using hfind p hp)
    | some q => rfl
  · rw [if_neg hmem, find_append_one sp n b (Bool.eq_false_iff.mpr hmem)]
    rfl

lemma getSplit_setSplit_ne (sp : List (Node × Bool)) (m n : Node) (b : Bool)
    (h : m ≠ n) : getSplit (setSplit sp m b) n = getSplit sp n := by
  unfold setSplit getSplit
  by_cases hmem : sp.any (fun p => p.1 == m) = true
  · rw [if_pos hmem, find_update_ne sp m n b h]
  · rw [if_neg hmem, find_append_ne sp m n b h]

lemma processNode_edges_self (opp : List FEdge) (st : PassState) (n : Node) :
    outEdges (processNode opp st n).edges n =
      applyAsgn (outEdges st.edges n) (nodeAction opp (outEdges st.edges n)).1 := by
  unfold processNode
  cases ha : (nodeAction opp (outEdges st.edges n)).1 with
  | none => simp [ha, applyAsgn]
  | some t =>
    obtain ⟨u, v, q⟩ := t
    obtain ⟨e, he, hu, hv⟩ := nodeAction_src _ _ _ _ _ ha
    have hun : u = n := hu ▸ mem_outEdges_src he
    simp only [ha, applyAsgn_outEdges, hun, if_pos]

lemma processNode_edges_ne (opp : List FEdge) (st : PassState) (m n : Node)
    (h : m ≠ n) :
    outEdges (processNode opp st m).edges n = outEdges st.edges n := by
  unfold processNode
  cases ha : (nodeAction opp (outEdges st.edges m)).1 with
  | none => simp [ha, applyAsgn]
  | some t =>
    obtain ⟨u, v, q⟩ := t
    obtain ⟨e, he, hu, hv⟩ := nodeAction_src _ _ _ _ _ ha
    have hum : u = m := hu ▸ mem_outEdges_src he
    simp only [ha, applyAsgn_outEdges]
    rw [if_neg (hum ▸ h)]

lemma processNode_split_self (opp : List FEdge) (st : PassState) (n : Node) :
    getSplit (processNode opp st n).split n =
      some (nodeAction opp (outEdges st.edges n)).2.1 := by
  unfold processNode
  exact getSplit_setSplit_self _ _ _

lemma processNode_split_ne (opp : List FEdge) (st : PassState) (m n : Node)
    (h : m ≠ n) :
    getSplit (processNode opp st m).split n = getSplit st.split n := by
  unfold processNode
  exact getSplit_setSplit_ne _ _ _ _ h

lemma processNode_issues (opp : List FEdge) (st : PassState) (n : Node) :
    (processNode opp st n).issues =
      st.issues ++ (nodeAction opp (outEdges st.edges n)).2.2 := rfl

lemma runPass_issues_mono (opp : List FEdge) (order : List Node) (st : PassState) :
    ∃ t, (runPass opp order st).issues = st.issues ++ t := by
  induction order generalizing st with
  | nil => exact ⟨[], by simp [runPass]⟩
  | cons m order ih =>
    obtain ⟨t, ht⟩ := ih (processNode opp st m)
    refine ⟨(nodeAction opp (outEdges st.edges m)).2.2 ++ t, ?_⟩
    simp only [runPass, List.foldl_cons] at *
    rw [ht, processNode_issues, List.append_assoc]

lemma runPass_not_mem (opp : List FEdge) (order : List Node) (st : PassState)
    (n : Node) (h : n ∉ order) :
    outEdges (runPass opp order st).edges n = outEdges st.edges n ∧
      getSplit (runPass opp order st).split n = getSplit st.split n := by
  induction order generalizing st with
  | nil => exact ⟨rfl, rfl⟩
  | cons m order ih =>
    have hm : m ≠ n := fun hmn => h (hmn ▸ List.mem_cons_self m order)
    have hn : n ∉ order := fun hn => h (List.mem_cons_of_mem m hn)
    obtain ⟨h1, h2⟩ := ih (processNode opp st m) hn
    constructor
    · rw [runPass, List.foldl_cons, ← runPass, h1, processNode_edges_ne _ _ _ _ hm]
    · rw [runPass, List.foldl_cons, ← runPass, h2, processNode_split_ne _ _ _ _ hm]

/-- Reading off the final state of a node `n` occurring exactly once in the
processing order: its out-edges are the result of its own `nodeAction` applied
to its initial out-edges, its split flag is the one its `nodeAction` computed,
and the issues its `nodeAction` emitted are in the final issue list. -/
lemma runPass_count_one (opp : List FEdge) (order : List Node) (st : PassState)
    (n : Node) (h : order.count n = 1) :
    outEdges (runPass opp order st).edges n =
        applyAsgn (outEdges st.edges n) (nodeAction opp (outEdges st.edges n)).1 ∧
      getSplit (runPass opp order st).split n =
        some (nodeAction opp (outEdges st.edges n)).2.1 ∧
      ∀ i ∈ (nodeAction opp (outEdges st.edges n)).2.2,
        i ∈ (runPass opp order st).issues := by
  induction order generalizing st with
  | nil => simp at h
  | cons m order ih =>
    by_cases hm : m = n
    · subst hm
      rw [List.count_cons_self] at h
      have h0 : order.count m = 0 := by omega
      have hnm : m ∉ order := List.count_eq_zero.mp h0
      obtain ⟨h1, h2⟩ := runPass_not_mem opp order (processNode opp st m) m hnm
      rw [runPass, List.foldl_cons, ← runPass]
      refine ⟨?_, ?_, ?_⟩
      · rw [h1, processNode_edges_self]
      · rw [h2, processNode_split_self]
      · intro i hi
        obtain ⟨t, ht⟩ := runPass_issues_mono opp order (processNode opp st m)
        rw [ht, processNode_issues]
        simp only [List.append_assoc, List.mem_append]
        exact Or.inr (Or.inl hi)
    · have hcnt : order.count n = 1 := by
        rwa [List.count_cons_of_ne (fun hh => hm hh.symm)] at h
      have he := processNode_edges_ne opp st m n hm
      obtain ⟨h1, h2, h3⟩ := ih (processNode opp st m) hcnt
      rw [runPass, List.foldl_cons, ← runPass]
      rw [he] at h1 h2 h3
      exact ⟨h1, h2, h3⟩

/-! ### Case analysis of `nodeAction` -/

lemma nodeAction_sum_case (opp : List FEdge) (outE : List FEdge) (em : FEdge)
    (hlen : 2 ≤ outE.length)
    (hmiss : outE.filter (fun e => !wTruthy e.w) = [em]) :
    nodeAction opp outE =
      if sumTruthy outE > 1 then
        (none, false, [.cannotInferSum em.src em.dst])
      else
        (some (em.src, em.dst, 1 - sumTruthy outE), true,
          [.inferredFromSum em.src em.dst]) := by
  have h0 : outE.isEmpty = false := by
    cases outE with
    | nil => simp at hlen
    | cons e es => rfl
  have h1 : ¬((outE.filter (fun e => !wTruthy e.w)).length > 1) := by
    rw [hmiss]; simp
  have h2 : ((outE.filter (fun e => !wTruthy e.w)).length == 1) = true := by
    rw [hmiss]; rfl
  have h3 : (outE.length == 1) = false := by
    simp only [beq_eq_false_iff_ne, ne_eq]
    omega
  unfold nodeAction
  simp only [h0, Bool.false_eq_true, if_false, h1, h2, if_true, h3, hmiss]
  simp

lemma nodeAction_single_edge (opp : List FEdge) (e : FEdge)
    (hw : wTruthy e.w = false) :
    nodeAction opp [e] =
      match lookupW opp e.dst e.src with
      | some q =>
        if q != 0 then
          (some (e.src, e.dst, 1 / q), false, [.inferredOpposite e.src e.dst])
        else
          (some (e.src, e.dst, 1), false, [.inferredNoOpposite e.src e.dst])
      | none => (some (e.src, e.dst, 1), false, [.inferredNoOpposite e.src e.dst]) := by
  have hf : [e].filter (fun e => !wTruthy e.w) = [e] := by
    simp [List.filter, hw]
  unfold nodeAction
  simp only [List.isEmpty_cons, Bool.false_eq_true, if_false, hf]
  rfl

lemma nodeAction_all_weighted (opp : List FEdge) (outE : List FEdge)
    (hlen : 2 ≤ outE.length)
    (hall : outE.filter (fun e => !wTruthy e.w) = []) :
    nodeAction opp outE = (none, isclose (sumAll outE) 1, []) := by
  have h0 : outE.isEmpty = false := by
    cases outE with
    | nil => simp at hlen
    | cons e es => rfl
  have h1 : ¬((outE.filter (fun e => !wTruthy e.w)).length > 1) := by
    rw [hall]; simp
  have h2 : ((outE.filter (fun e => !wTruthy e.w)).length == 1) = false := by
    rw [hall]; rfl
  have h3 : outE.length > 1 := by omega
  unfold nodeAction
  simp only [h0, Bool.false_eq_true, if_false, h1, h2, h3, if_true]

lemma applyAsgn_singleton (e : FEdge) (q : ℚ) :
    applyAsgn [e] (some (e.src, e.dst, q)) = [{ e with w := some q }] := by
  simp [applyAsgn]

/-- Reading the final direct graph of `analyze_and_complete` at one node of an
acyclic graph: it is determined by the node's initial out-edges in the direct
graph and by the (pristine) reverse graph, independently of the rest of the
topological order. -/
lemma analyze_direct_char (fg : FlowGraph) (oD oR : List Node) (n : Node)
    (hnc : hasCycleB fg.direct = false) (hcount : oD.count n = 1) :
    outEdges (analyzeAndComplete fg oD oR).direct n =
        applyAsgn (outEdges fg.direct n) (nodeAction fg.reverse (outEdges fg.direct n)).1 ∧
      getSplit (analyzeAndComplete fg oD oR).dsplit n =
        some (nodeAction fg.reverse (outEdges fg.direct n)).2.1 ∧
      ∀ i ∈ (nodeAction fg.reverse (outEdges fg.direct n)).2.2,
        i ∈ (analyzeAndComplete fg oD oR).issues := by
  unfold analyzeAndComplete
  simp only [hnc, Bool.false_eq_true, if_false]
  obtain ⟨h1, h2, h3⟩ := runPass_count_one fg.reverse oD ⟨fg.direct, [], []⟩ n hcount
  exact ⟨h1, h2, fun i hi => List.mem_append.mpr (Or.inl (h3 i hi))⟩

/-! ## Claims about `analyze_and_complete` / `get_computation_graph`

For concrete witnesses the kernel has to evaluate rational arithmetic, so the
`Batteries` irreducibility markers on the `Rat` operations are lifted locally
(this only affects definitional unfolding, not the statements). -/

section ConcreteEvaluation

set_option allowUnsafeReducibility true

attribute [local semireducible] Rat.add Rat.mul Rat.sub Rat.inv

/-- **C1.** If the direct graph of a flow graph contains a directed cycle,
`get_computation_graph` returns no computation graph (`None`) together with
the single ERROR issue, and `analyze_and_complete` stops right after the
cycle check: both graphs keep their original weights, no node is marked
split, and no other issue is produced. -/
theorem cyclic_flow_graph_rejected (fg : FlowGraph) (oD oR : List Node)
    (h : hasCycleB fg.direct = true) :
    getComputationGraph fg oD oR = (none, [Issue.cycleError]) ∧
      analyzeAndComplete fg oD oR =
        ⟨[Issue.cycleError], fg.direct, fg.reverse, [], []⟩ := by
  unfold getComputationGraph analyzeAndComplete
  simp [h, Issue.itype]

/-- A flow graph with the cycle A→B→A. -/
def exCyclic : FlowGraph :=
  FlowGraph.ofDiGraph [("A", "B", some 1), ("B", "A", some 1)]

theorem cyclic_flow_graph_rejected_witness :
    hasCycleB exCyclic.direct = true ∧
      (getComputationGraph exCyclic ["A", "B"] ["A", "B"] = (none, [Issue.cycleError]) ∧
        analyzeAndComplete exCyclic ["A", "B"] ["A", "B"] =
          ⟨[Issue.cycleError], exCyclic.direct, exCyclic.reverse, [], []⟩) :=
  ⟨by decide, cyclic_flow_graph_rejected exCyclic ["A", "B"] ["A", "B"] (by decide)⟩

/-- **C2.** For a node of an acyclic graph with at least two outgoing edges of
which exactly one lacks a (truthy) weight: if the sum of the other edges'
weights exceeds 1.0 the missing weight is left unchanged and a WARNING issue
is recorded; otherwise the missing weight is set to `1 - sum`, the node is
marked `split = true`, and an INFO issue is recorded. -/
theorem missing_weight_inferred_from_sum (fg : FlowGraph) (oD oR : List Node)
    (n : Node) (em : FEdge)
    (hnc : hasCycleB fg.direct = false) (hcount : oD.count n = 1)
    (hlen : 2 ≤ (outEdges fg.direct n).length)
    (hmiss : (outEdges fg.direct n).filter (fun e => !wTruthy e.w) = [em]) :
    (sumTruthy (outEdges fg.direct n) > 1 →
        outEdges (analyzeAndComplete fg oD oR).direct n = outEdges fg.direct n ∧
          getSplit (analyzeAndComplete fg oD oR).dsplit n = some false ∧
          Issue.cannotInferSum em.src em.dst ∈ (analyzeAndComplete fg oD oR).issues) ∧
      (¬(sumTruthy (outEdges fg.direct n) > 1) →
        outEdges (analyzeAndComplete fg oD oR).direct n =
            applyAsgn (outEdges fg.direct n)
              (some (em.src, em.dst, 1 - sumTruthy (outEdges fg.direct n))) ∧
          getSplit (analyzeAndComplete fg oD oR).dsplit n = some true ∧
          Issue.inferredFromSum em.src em.dst ∈ (analyzeAndComplete fg oD oR).issues) := by
  obtain ⟨h1, h2, h3⟩ := analyze_direct_char fg oD oR n hnc hcount
  rw [nodeAction_sum_case fg.reverse _ em hlen hmiss] at h1 h2 h3
  constructor
  · intro hs
    rw [if_pos hs] at h1 h2 h3
    exact ⟨h1, h2, h3 _ (List.mem_singleton_self _)⟩
  · intro hs
    rw [if_neg hs] at h1 h2 h3
    exact ⟨h1, h2, h3 _ (List.mem_singleton_self _)⟩

/-- The flow graph of the C2 example: A→B with weight 0.6, A→C without. -/
def exTwoEdges : FlowGraph :=
  FlowGraph.ofDiGraph [("A", "B", some (3 / 5)), ("A", "C", none)]

theorem missing_weight_inferred_from_sum_witness :
    (hasCycleB exTwoEdges.direct = false ∧
        (["A", "B", "C"] : List Node).count "A" = 1 ∧
        2 ≤ (outEdges exTwoEdges.direct "A").length ∧
        (outEdges exTwoEdges.direct "A").filter (fun e => !wTruthy e.w) =
          [⟨"A", "C", none⟩]) ∧
      ((sumTruthy (outEdges exTwoEdges.direct "A") > 1 →
          outEdges (analyzeAndComplete exTwoEdges ["A", "B", "C"] ["B", "C", "A"]).direct "A" =
              outEdges exTwoEdges.direct "A" ∧
            getSplit (analyzeAndComplete exTwoEdges ["A", "B", "C"] ["B", "C", "A"]).dsplit "A" =
              some false ∧
            Issue.cannotInferSum "A" "C" ∈
              (analyzeAndComplete exTwoEdges ["A", "B", "C"] ["B", "C", "A"]).issues) ∧
        (¬(sumTruthy (outEdges exTwoEdges.direct "A") > 1) →
          outEdges (analyzeAndComplete exTwoEdges ["A", "B", "C"] ["B", "C", "A"]).direct "A" =
              applyAsgn (outEdges exTwoEdges.direct "A")
                (some ("A", "C", 1 - sumTruthy (outEdges exTwoEdges.direct "A"))) ∧
            getSplit (analyzeAndComplete exTwoEdges ["A", "B", "C"] ["B", "C", "A"]).dsplit "A" =
              some true ∧
            Issue.inferredFromSum "A" "C" ∈
              (analyzeAndComplete exTwoEdges ["A", "B", "C"] ["B", "C", "A"]).issues)) :=
  ⟨⟨by decide, by decide, by decide, by decide⟩,
    missing_weight_inferred_from_sum exTwoEdges ["A", "B", "C"] ["B", "C", "A"] "A"
      ⟨"A", "C", none⟩ (by decide) (by decide) (by decide) (by decide)⟩

/-- The missing weight of the C2 example is indeed inferred as 0.4 and the
node marked split (direct corollary of the witness input, evaluated). -/
theorem missing_weight_inferred_point_four :
    lookupW (analyzeAndComplete exTwoEdges ["A", "B", "C"] ["B", "C", "A"]).direct "A" "C" =
        some (2 / 5) ∧
      getSplit (analyzeAndComplete exTwoEdges ["A", "B", "C"] ["B", "C", "A"]).dsplit "A" =
        some true := by
  decide

/-- **C3.** For a node whose single outgoing edge lacks a (truthy) weight: if
the opposite graph carries a nonzero weight `q` for the reversed edge, the
weight is set to `1/q`; if the opposite graph carries no weight, the weight is
set to exactly 1.0; in both cases an INFO issue is recorded.  (Stated for the
direct pass; the reverse pass runs the identical per-node action.) -/
theorem single_edge_weight_inference (fg : FlowGraph) (oD oR : List Node)
    (n : Node) (e : FEdge)
    (hnc : hasCycleB fg.direct = false) (hcount : oD.count n = 1)
    (hout : outEdges fg.direct n = [e]) (hw : wTruthy e.w = false) :
    (∀ q : ℚ, lookupW fg.reverse e.dst e.src = some q → q ≠ 0 →
        outEdges (analyzeAndComplete fg oD oR).direct n = [{ e with w := some (1 / q) }] ∧
          Issue.inferredOpposite e.src e.dst ∈ (analyzeAndComplete fg oD oR).issues) ∧
      (lookupW fg.reverse e.dst e.src = none →
        outEdges (analyzeAndComplete fg oD oR).direct n = [{ e with w := some 1 }] ∧
          Issue.inferredNoOpposite e.src e.dst ∈ (analyzeAndComplete fg oD oR).issues) := by
  obtain ⟨h1, h2, h3⟩ := analyze_direct_char fg oD oR n hnc hcount
  rw [hout, nodeAction_single_edge fg.reverse e hw] at h1 h2 h3
  constructor
  · intro q hq hq0
    rw [hq] at h1 h2 h3
    have hq' : (q != 0) = true := by simp [hq0]
    simp only [hq', if_true] at h1 h2 h3
    rw [applyAsgn_singleton] at h1
    exact ⟨h1, h3 _ (List.mem_singleton_self _)⟩
  · intro hq
    rw [hq] at h1 h2 h3
    rw [applyAsgn_singleton] at h1
    exact ⟨h1, h3 _ (List.mem_singleton_self _)⟩

/-- Single edge A→B without direct weight whose reverse weight is 2. -/
def exSingleOpp : FlowGraph := (FlowGraph.mk [] []).addEdge "A" "B" none (some 2)

theorem single_edge_weight_inference_witness :
    (hasCycleB exSingleOpp.direct = false ∧
        (["A", "B"] : List Node).count "A" = 1 ∧
        outEdges exSingleOpp.direct "A" = [⟨"A", "B", none⟩] ∧
        wTruthy (none : Option ℚ) = false) ∧
      ((∀ q : ℚ, lookupW exSingleOpp.reverse "B" "A" = some q → q ≠ 0 →
          outEdges (analyzeAndComplete exSingleOpp ["A", "B"] ["B", "A"]).direct "A" =
              [⟨"A", "B", some (1 / q)⟩] ∧
            Issue.inferredOpposite "A" "B" ∈
              (analyzeAndComplete exSingleOpp ["A", "B"] ["B", "A"]).issues) ∧
        (lookupW exSingleOpp.reverse "B" "A" = none →
          outEdges (analyzeAndComplete exSingleOpp ["A", "B"] ["B", "A"]).direct "A" =
              [⟨"A", "B", some 1⟩] ∧
            Issue.inferredNoOpposite "A" "B" ∈
              (analyzeAndComplete exSingleOpp ["A", "B"] ["B", "A"]).issues)) :=
  ⟨⟨by decide, by decide, by decide, by decide⟩,
    single_edge_weight_inference exSingleOpp ["A", "B"] ["B", "A"] "A"
      ⟨"A", "B", none⟩ (by decide) (by decide) (by decide) (by decide)⟩

/-- **C10.** An edge weight of 0.0 is treated exactly like a missing weight
(`if not e[2]['weight']` and `if opposite_weight:` use Python truthiness): a
single outgoing edge with weight 0.0 is selected for inference, an opposite
weight of 0.0 counts as absent, no division `1/opposite` is attempted, and
the inferred weight is 1.0 (overwriting the 0.0). -/
theorem zero_weight_treated_as_missing (fg : FlowGraph) (oD oR : List Node)
    (n : Node) (e : FEdge)
    (hnc : hasCycleB fg.direct = false) (hcount : oD.count n = 1)
    (hout : outEdges fg.direct n = [e]) (hw : e.w = some 0)
    (hopp : lookupW fg.reverse e.dst e.src = none ∨
      lookupW fg.reverse e.dst e.src = some 0) :
    wTruthy (some 0) = wTruthy none ∧
      outEdges (analyzeAndComplete fg oD oR).direct n = [{ e with w := some 1 }] ∧
      Issue.inferredNoOpposite e.src e.dst ∈ (analyzeAndComplete fg oD oR).issues := by
  have hwf : wTruthy e.w = false := by rw [hw]; rfl
  obtain ⟨h1, h2, h3⟩ := analyze_direct_char fg oD oR n hnc hcount
  rw [hout, nodeAction_single_edge fg.reverse e hwf] at h1 h2 h3
  refine ⟨rfl, ?_⟩
  rcases hopp with hq | hq
  · rw [hq] at h1 h2 h3
    rw [applyAsgn_singleton] at h1
    exact ⟨h1, h3 _ (List.mem_singleton_self _)⟩
  · rw [hq] at h1 h2 h3
    simp only [show ((0 : ℚ) != 0) = false from rfl, Bool.false_eq_true, if_false] at h1 h2 h3
    rw [applyAsgn_singleton] at h1
    exact ⟨h1, h3 _ (List.mem_singleton_self _)⟩

/-- Single edge A→B with direct weight 0.0 and reverse weight 0.0. -/
def exZeroWeights : FlowGraph := (FlowGraph.mk [] []).addEdge "A" "B" (some 0) (some 0)

theorem zero_weight_treated_as_missing_witness :
    (hasCycleB exZeroWeights.direct = false ∧
        (["A", "B"] : List Node).count "A" = 1 ∧
        outEdges exZeroWeights.direct "A" = [⟨"A", "B", some 0⟩] ∧
        (lookupW exZeroWeights.reverse "B" "A" = none ∨
          lookupW exZeroWeights.reverse "B" "A" = some 0)) ∧
      (wTruthy (some 0) = wTruthy none ∧
        outEdges (analyzeAndComplete exZeroWeights ["A", "B"] ["B", "A"]).direct "A" =
          [⟨"A", "B", some 1⟩] ∧
        Issue.inferredNoOpposite "A" "B" ∈
          (analyzeAndComplete exZeroWeights ["A", "B"] ["B", "A"]).issues) :=
  ⟨⟨by decide, by decide, by decide, by decide⟩,
    zero_weight_treated_as_missing exZeroWeights ["A", "B"] ["B", "A"] "A"
      ⟨"A", "B", some 0⟩ (by decide) (by decide) (by decide) (by decide)
      (Or.inr (by decide))⟩

/-- Single edge A→B with pre-assigned direct weight 1.0. -/
def exSingleWeighted : FlowGraph := FlowGraph.ofDiGraph [("A", "B", some 1)]

/-- **C8 (counterexample).** A node with a single outgoing edge whose
pre-assigned weight is 1.0 has all outgoing edges weighted with sum ≈ 1.0,
yet `analyze_and_complete` leaves its split flag `False`: the
`len(all_edges) > 1` guard excludes single-edge nodes from split marking. -/
theorem split_single_edge_counterexample :
    (outEdges exSingleWeighted.direct "A").all (fun e => wTruthy e.w) = true ∧
      isclose (sumAll (outEdges exSingleWeighted.direct "A")) 1 = true ∧
      getSplit (analyzeAndComplete exSingleWeighted ["A", "B"] ["B", "A"]).dsplit "A" =
        some false := by
  decide

/-- **C8 (amended).** A node with at least two outgoing edges, all of which
carry truthy weights, is marked `split = true` whenever the sum of those
weights is within `math.isclose` tolerance of 1.0 (and its out-edges are left
unchanged); a single-edge node is never so marked (see the counterexample). -/
theorem split_marked_when_weights_sum_to_one (fg : FlowGraph) (oD oR : List Node)
    (n : Node)
    (hnc : hasCycleB fg.direct = false) (hcount : oD.count n = 1)
    (hlen : 2 ≤ (outEdges fg.direct n).length)
    (hall : (outEdges fg.direct n).filter (fun e => !wTruthy e.w) = [])
    (hclose : isclose (sumAll (outEdges fg.direct n)) 1 = true) :
    getSplit (analyzeAndComplete fg oD oR).dsplit n = some true ∧
      outEdges (analyzeAndComplete fg oD oR).direct n = outEdges fg.direct n := by
  obtain ⟨h1, h2, h3⟩ := analyze_direct_char fg oD oR n hnc hcount
  rw [nodeAction_all_weighted fg.reverse _ hlen hall] at h1 h2
  rw [hclose] at h2
  exact ⟨h2, h1⟩

/-- Two edges A→B and A→C with weights 0.5 each. -/
def exTwoHalves : FlowGraph :=
  FlowGraph.ofDiGraph [("A", "B", some (1 / 2)), ("A", "C", some (1 / 2))]

theorem split_marked_when_weights_sum_to_one_witness :
    (hasCycleB exTwoHalves.direct = false ∧
        (["A", "B", "C"] : List Node).count "A" = 1 ∧
        2 ≤ (outEdges exTwoHalves.direct "A").length ∧
        (outEdges exTwoHalves.direct "A").filter (fun e => !wTruthy e.w) = [] ∧
        isclose (sumAll (outEdges exTwoHalves.direct "A")) 1 = true) ∧
      (getSplit (analyzeAndComplete exTwoHalves ["A", "B", "C"] ["B", "C", "A"]).dsplit "A" =
          some true ∧
        outEdges (analyzeAndComplete exTwoHalves ["A", "B", "C"] ["B", "C", "A"]).direct "A" =
          outEdges exTwoHalves.direct "A") :=
  ⟨⟨by decide, by decide, by decide, by decide, by decide⟩,
    split_marked_when_weights_sum_to_one exTwoHalves ["A", "B", "C"] ["B", "C", "A"] "A"
      (by decide) (by decide) (by decide) (by decide) (by decide)⟩

end ConcreteEvaluation

/-! ## Parameter resolution (`evaluate_parameters_for_scenario`)

`backend/solving/flow_graph_solver.py` lines 58–134.  Dictionaries built by
`create_dictionary()` are case-insensitive (`case_sensitive = False` in
`backend/__init__.py`): they store, under the lower-cased key, the pair
(cased key, value), and iteration yields the *cased* keys.  They are modelled
as lists of `(lowerKey, casedKey, value)` triples with insertion replacing in
place (an `OrderedDict` keeps the position on overwrite).

Expressions are modelled after the §6 evaluator contract: given an expression
and a variable context, the evaluator returns a value-or-none together with
the set of referenced-but-unresolved parameter names (a reference is resolved
case-insensitively, like `State.get`). -/

/-- ASCII lower-casing of one character. -/
def lowerChar (c : Char) : Char :=
  if 65 ≤ c.toNat ∧ c.toNat ≤ 90 then Char.ofNat (c.toNat + 32) else c

/-- Lower-casing of a dictionary key (`key.lower()`, ASCII). -/
def normKey (s : String) : String := ⟨s.data.map lowerChar⟩

/-- One `(lowerKey, casedKey, value)` entry of a `CaseInsensitiveDict`. -/
abbrev SDictL (α : Type) := List (String × String × α)

/-- `CaseInsensitiveDict.__setitem__`: replace in place when the lower-cased
key is present (updating the stored cased key), else append. -/
def sdInsert {α : Type} (d : SDictL α) (k : String) (v : α) : SDictL α :=
  if d.any (fun e => e.1 == normKey k) then
    d.map (fun e => if e.1 == normKey k then (e.1, k, v) else e)
  else
    d ++ [(normKey k, k, v)]

/-- `CaseInsensitiveDict.__getitem__` (as an `Option`): look up by the
lower-cased key. -/
def sdGet {α : Type} (d : SDictL α) (k : String) : Option α :=
  (d.find? (fun e => e.1 == normKey k)).map (fun e => e.2.2)

/-- `CaseInsensitiveDict.__iter__`: the *cased* keys, in insertion order. -/
def sdKeysCased {α : Type} (d : SDictL α) : List String :=
  d.map (fun e => e.2.1)

/-- An expression over parameters, per the §6 evaluator contract (numeric
literals, parameter references, arithmetic). -/
inductive Expr where
  | num (q : ℚ)
  | param (name : String)
  | add (a b : Expr)
  | mul (a b : Expr)
deriving DecidableEq, Repr

/-- The parameter names referenced by an expression. -/
def Expr.refs : Expr → List String
  | .num _ => []
  | .param s => [s]
  | .add a b => a.refs ++ b.refs
  | .mul a b => a.refs ++ b.refs

/-- Evaluation against a variable context: `none` as soon as any referenced
parameter is missing (§6: "an expression becomes resolved once all its free
references are known"). -/
def evalE (st : SDictL ℚ) : Expr → Option ℚ
  | .num q => some q
  | .param s => sdGet st s
  | .add a b =>
    match evalE st a, evalE st b with
    | some x, some y => some (x + y)
    | _, _ => none
  | .mul a b =>
    match evalE st a, evalE st b with
    | some x, some y => some (x * y)
    | _, _ => none

/-- A stored parameter expression: either a numeric literal (Python
`int`/`float`) or an expression string. -/
inductive PExpr where
  | pnum (q : ℚ)
  | pexpr (e : Expr)
deriving DecidableEq, Repr

/-- Python truthiness of a stored expression (`if p.default_value`): the
number 0 is falsy; a (non-empty) expression string is truthy. -/
def pexprTruthy : PExpr → Bool
  | .pnum q => q != 0
  | .pexpr _ => true

/-- Python truthiness of an optional numeric value (`if not value`). -/
def pyTruthyQ : Option ℚ → Bool
  | none => false
  | some q => q != 0

/-- `evaluate_numeric_expression_with_parameters(expression, state)` returning
`(value, ast, unresolved parameter names)`.  A numeric literal (also a pure
numeral string, via `float(expression)`) gives its value with no AST; for an
expression string the AST is kept exactly when the value is falsy
(`if value: ast = None`). -/
def evalNum (pe : PExpr) (st : SDictL ℚ) : Option ℚ × Option Expr × List String :=
  match pe with
  | .pnum q => (some q, none, [])
  | .pexpr e =>
    match e with
    | .num q => (some q, none, [])
    | _ =>
      let v := evalE st e
      (v, if pyTruthyQ v then none else some e,
        e.refs.filter (fun r => (sdGet st r).isNone))

/-- Evaluating a stored AST in the fixpoint loop
(`evaluate_numeric_expression_with_parameters(ast, state)`): a `None` ast is
falsy (`if not expression`) and yields no value. -/
def evalAstOpt : Option Expr → SDictL ℚ → Option ℚ
  | none, _ => none
  | some e, st => evalE st e

/-- The exceptions raised by the solver functions. -/
inductive PyErr where
  /-- `':: '.join(cycles)` with list elements raises `TypeError` before the
  intended "Parameters cannot have circular dependencies" message is built. -/
  | typeError
  /-- "It should be possible to evaluate the parameter '…'" -/
  | notEvaluable (param : String)
  /-- "Could not evaluate the following parameters: …" -/
  | unresolvedParams (names : List String)
  /-- "Interfaces in scale chains cannot have assigned values: …" -/
  | nonBeginningObserved
  /-- "Could not evaluate expression '…'" (scale beginning value) -/
  | cannotEvaluateBeginning
  /-- "Could not evaluate edge scale expression '…'" -/
  | cannotEvaluateScaleEdge
  /-- "An Interface should not appear in more than one Scale relation as
  destination" -/
  | duplicateScaleDestination
  /-- "Cannot evaluate expression '…' for weight from interface …" -/
  | cannotEvaluateWeight
deriving DecidableEq, Repr

/-- A `Parameter` as consumed by the resolver: its name and optional default
expression. -/
structure Parameter where
  name : String
  default_value : Option PExpr
deriving DecidableEq, Repr

/-- The merged map: base defaults (only truthy ones —
`{p.name: p.default_value for p in base_params if p.default_value}`)
overwritten by the scenario overrides. -/
def mergedParams (base : List Parameter) (scen : List (String × PExpr)) :
    SDictL PExpr :=
  let d0 := base.foldl (fun d p =>
    match p.default_value with
    | some pe => if pexprTruthy pe then sdInsert d p.name pe else d
    | none => d) []
  scen.foldl (fun d kv => sdInsert d kv.1 kv.2) d0

/-- The state of the classification pass (`known_params`, `unknown_params`,
and `result_params` being overwritten with evaluated constants). -/
structure ClassifyState where
  result : SDictL PExpr
  known : SDictL ℚ
  unknown : SDictL (Option Expr × List String)
deriving DecidableEq, Repr

/-- One step of the classification pass over `result_params` (evaluation
against the still-empty `state`): falsy values go to `unknown_params` with
their AST and lower-cased unresolved references, truthy constants overwrite
`result_params` and are recorded in `known_params`. -/
def classifyStep (st : ClassifyState) (e : String × String × PExpr) : ClassifyState :=
  let r := evalNum e.2.2 []
  if pyTruthyQ r.1 then
    { st with
      result := sdInsert st.result e.2.1 (.pnum (r.1.getD 0))
      known := sdInsert st.known e.2.1 (r.1.getD 0) }
  else
    { st with unknown := sdInsert st.unknown e.2.1 (r.2.1, r.2.2.map normKey) }

/-- The whole classification pass. -/
def classifyParams (rp : SDictL PExpr) : ClassifyState :=
  rp.foldl classifyStep { result := rp, known := [], unknown := [] }

/-- `get_circular_dependencies`: an edge `dependency → dependent` for every
recorded reference (dependents iterate with their cased key). -/
def depEdges (unknown : SDictL (Option Expr × List String)) :
    List (String × String) :=
  unknown.flatMap (fun e => e.2.2.2.map (fun d => (d, e.2.1)))

/-- One pass of the fixpoint loop (`for param in list(unknown_params)`):
entries whose recorded references are all among the *cased* keys that
iterating `known_params` yields are evaluated against the current state; a
falsy value raises "It should be possible to evaluate"; the rest are kept. -/
def resolvePass (known : SDictL ℚ) :
    SDictL ℚ → SDictL PExpr → SDictL (Option Expr × List String) →
    Except PyErr (SDictL ℚ × SDictL PExpr × SDictL (Option Expr × List String))
  | st, res, [] => .ok (st, res, [])
  | st, res, entry :: rest =>
    if entry.2.2.2.all (fun r => (sdKeysCased known).contains r) then
      let v := evalAstOpt entry.2.2.1 st
      if pyTruthyQ v then
        resolvePass known (sdInsert st entry.2.1 (v.getD 0))
          (sdInsert res entry.2.1 (.pnum (v.getD 0))) rest
      else
        .error (.notEvaluable entry.2.1)
    else
      (resolvePass known st res rest).map (fun t => (t.1, t.2.1, entry :: t.2.2))

/-- The check after the loop: any parameter still unresolved raises
"Could not evaluate the following parameters". -/
def finishResolve (res : SDictL PExpr) (unk : SDictL (Option Expr × List String)) :
    Except PyErr (SDictL PExpr) :=
  if unk.length > 0 then .error (.unresolvedParams (sdKeysCased unk)) else .ok res

/-- The fixpoint loop (`while len(unknown_params) < previous_len`): repeat the
pass while it strictly shrinks `unknown_params`.  The fuel
`unknown.length + 1` bounds the number of strictly-shrinking passes. -/
def resolveLoop (known : SDictL ℚ) :
    Nat → SDictL ℚ → SDictL PExpr → SDictL (Option Expr × List String) →
    Except PyErr (SDictL PExpr)
  | 0, _, res, unk => finishResolve res unk
  | fuel + 1, st, res, unk =>
    match resolvePass known st res unk with
    | .error e => .error e
    | .ok (st', res', unk') =>
      if unk'.length < unk.length then resolveLoop known fuel st' res' unk'
      else finishResolve res' unk'

/-- `evaluate_parameters_for_scenario`: merge defaults with overrides,
classify by evaluating against an empty context, detect circular dependencies
(where the message construction `':: '.join(cycles)` raises `TypeError`
because the cycles are lists, not strings), then iterate to a fixpoint with
the state initialised from the known constants. -/
def evaluateParametersForScenario (base : List Parameter)
    (scen : List (String × PExpr)) : Except PyErr (SDictL PExpr) :=
  if hasCycleEdges (depEdges (classifyParams (mergedParams base scen)).unknown) then
    .error .typeError
  else
    resolveLoop (classifyParams (mergedParams base scen)).known
      ((classifyParams (mergedParams base scen)).unknown.length + 1)
      (classifyParams (mergedParams base scen)).known
      (classifyParams (mergedParams base scen)).result
      (classifyParams (mergedParams base scen)).unknown

/-! ### Dictionary lemmas -/

lemma sd_find_update {α : Type} (d : SDictL α) (k k' : String) (v : α) :
    (d.map (fun e => if e.1 == normKey k then (e.1, k, v) else e)).find?
        (fun e => e.1 == normKey k') =
      if normKey k = normKey k' then
        (d.find? (fun e => e.1 == normKey k)).map (fun e => (e.1, k, v))
      else
        d.find? (fun e => e.1 == normKey k') := by
  by_cases hkk : normKey k = normKey k'
  · rw [if_pos hkk]
    induction d with
    | nil => rfl
    | cons e d ih =>
      by_cases he : e.1 = normKey k
      · have h1 : (e.1 == normKey k) = true := by simp [he]
        simp only [List.map_cons, h1, if_true]
        rw [List.find?_cons_of_pos _ (by simp [he, hkk])]
        simp [List.find?_cons, h1]
      · have h1 : (e.1 == normKey k) = false := by simp [he]
        have h2 : (e.1 == normKey k') = false := by simp [← hkk, he]
        simp only [List.map_cons, h1, Bool.false_eq_true, if_false]
        rw [List.find?_cons_of_neg _ (by simp [h2]),
          List.find?_cons_of_neg _ (by simp [h1])]
        exact ih
  · rw [if_neg hkk]
    induction d with
    | nil => rfl
    | cons e d ih =>
      by_cases he : e.1 = normKey k
      · have h1 : (e.1 == normKey k) = true := by simp [he]
        have h2 : (e.1 == normKey k') = false := by simp [he, hkk]
        simp only [List.map_cons, h1, if_true]
        rw [List.find?_cons_of_neg _ (by simp [he, hkk]),
          List.find?_cons_of_neg _ (by simp [he, hkk])]
        exact ih
      · have h1 : (e.1 == normKey k) = false := by simp [he]
        simp only [List.map_cons, h1, Bool.false_eq_true, if_false]
        by_cases he' : e.1 = normKey k'
        · rw [List.find?_cons_of_pos _ (by simp [he']),
            List.find?_cons_of_pos _ (by simp [he'])]
        · rw [List.find?_cons_of_neg _ (by simp [he']),
            List.find?_cons_of_neg _ (by simp [he'])]
          exact ih

lemma sd_find_append {α : Type} (d : SDictL α) (k k' : String) (v : α)
    (hmem : d.any (fun e => e.1 == normKey k) = false) :
    (d ++ [(normKey k, k, v)]).find? (fun e => e.1 == normKey k') =
      if normKey k = normKey k' then some (normKey k, k, v)
      else d.find? (fun e => e.1 == normKey k') := by
  induction d with
  | nil =>
    simp only [List.nil_append]
    by_cases hkk : normKey k = normKey k'
    · rw [if_pos hkk, List.find?_cons_of_pos _ (by simp [hkk])]
    · rw [if_neg hkk, List.find?_cons_of_neg _ (by simp [hkk])]
  | cons e d ih =>
    simp only [List.any_cons, Bool.or_eq_false_iff] at hmem
    by_cases hkk : normKey k = normKey k'
    · rw [if_pos hkk]
      have h2 : (e.1 == normKey k') = false := by
        rw [← hkk]; exact hmem.1
      rw [List.cons_append, List.find?_cons_of_neg _ (by simp [h2])]
      rw [ih hmem.2, if_pos hkk]
    · rw [if_neg hkk]
      by_cases he' : e.1 = normKey k'
      · rw [List.cons_append, List.find?_cons_of_pos _ (by simp [he']),
          List.find?_cons_of_pos _ (by simp [he'])]
      · rw [List.cons_append, List.find?_cons_of_neg _ (by simp [he']),
          List.find?_cons_of_neg _ (by simp [he'])]
        rw [ih hmem.2, if_neg hkk]

/-- The fundamental lookup/insert law of the case-insensitive dictionary. -/
lemma sdGet_insert {α : Type} (d : SDictL α) (k k' : String) (v : α) :
    sdGet (sdInsert d k v) k' =
      if normKey k = normKey k' then some v else sdGet d k' := by
  unfold sdInsert sdGet
  by_cases hmem : d.any (fun e => e.1 == normKey k) = true
  · rw [if_pos hmem, sd_find_update]
    by_cases hkk : normKey k = normKey k'
    · rw [if_pos hkk, if_pos hkk]
      obtain ⟨p, hp, hpk⟩ := List.any_eq_true.mp hmem
      cases hfind : d.find? (fun e => e.1 == normKey k) with
      | none =>
        rw [List.find?_eq_none] at hfind
        exact absurd hpk (by simpa using hfind p hp)
      | some q => rfl
    · rw [if_neg hkk, if_neg hkk]
  · rw [if_neg hmem, sd_find_append d k k' v (Bool.eq_false_iff.mpr hmem)]
    by_cases hkk : normKey k = normKey k'
    · rw [if_pos hkk, if_pos hkk]
      rfl
    · rw [if_neg hkk, if_neg hkk]

/-- Well-formedness of a case-insensitive dictionary: every entry's first
component is the lower-casing of its stored cased key, and the lower keys are
pairwise distinct. -/
def sdWF {α : Type} (d : SDictL α) : Prop :=
  (∀ e ∈ d, e.1 = normKey e.2.1) ∧ (d.map (fun e => e.1)).Nodup

lemma sdWF_nil {α : Type} : sdWF ([] : SDictL α) := ⟨by simp, by simp⟩

lemma sdWF_insert {α : Type} (d : SDictL α) (k : String) (v : α)
    (h : sdWF d) : sdWF (sdInsert d k v) := by
  unfold sdInsert
  by_cases hmem : d.any (fun e => e.1 == normKey k) = true
  · rw [if_pos hmem]
    constructor
    · intro e he
      obtain ⟨e', he', hee⟩ := List.mem_map.mp he
      by_cases h1 : e'.1 = normKey k
      · rw [← hee]; simp [h1]
      · rw [← hee]; simp only [h1, beq_iff_eq, if_neg h1]
        exact h.1 e' he'
    · have : (d.map (fun e => if e.1 == normKey k then (e.1, k, v) else e)).map
          (fun e => e.1) = d.map (fun e => e.1) := by
        rw [List.map_map]
        apply List.map_congr_left
        intro e he
        by_cases h1 : e.1 = normKey k <;> simp [h1]
      rw [this]
      exact h.2
  · rw [if_neg hmem]
    constructor
    · intro e he
      rcases List.mem_append.mp he with h1 | h1
      · exact h.1 e h1
      · simp only [List.mem_singleton] at h1
        rw [h1]
    · rw [List.map_append, List.nodup_append]
      refine ⟨h.2, by simp, ?_⟩
      intro a ha
      simp only [List.map_cons, List.map_nil, List.mem_singleton]
      intro hb
      rw [hb] at ha
      obtain ⟨e, he, hek⟩ := List.mem_map.mp ha
      have : d.any (fun e => e.1 == normKey k) = true :=
        List.any_eq_true.mpr ⟨e, he, by simp [hek]⟩
      exact hmem this

lemma foldl_sdWF {α β : Type} (l : List β) (f : SDictL α → β → SDictL α)
    (hf : ∀ d b, b ∈ l → sdWF d → sdWF (f d b)) (d0 : SDictL α)
    (h0 : sdWF d0) : sdWF (l.foldl f d0) := by
  induction l generalizing d0 with
  | nil => exact h0
  | cons b l ih =>
    exact ih (fun d b' hb' hd => hf d b' (List.mem_cons_of_mem b hb') hd) _
      (hf d0 b (List.mem_cons_self b l) h0)

lemma mergedParams_wf (base : List Parameter) (scen : List (String × PExpr)) :
    sdWF (mergedParams base scen) := by
  unfold mergedParams
  apply foldl_sdWF
  · intro d kv _ hd
    exact sdWF_insert d kv.1 kv.2 hd
  · apply foldl_sdWF
    · intro d p _ hd
      match p.default_value with
      | some pe =>
        by_cases ht : pexprTruthy pe = true
        · simpa [ht] using sdWF_insert d p.name pe hd
        · simpa [ht] using hd
      | none => exact hd
    · exact sdWF_nil

/-! ### Behaviour of the classification pass and the fixpoint loop -/

lemma classify_fold_frame (entries : SDictL PExpr) (st : ClassifyState)
    (name : String)
    (hwf : ∀ e ∈ entries, e.1 = normKey e.2.1)
    (hne : ∀ e ∈ entries, e.1 ≠ normKey name) :
    sdGet (entries.foldl classifyStep st).unknown name = sdGet st.unknown name := by
  induction entries generalizing st with
  | nil => rfl
  | cons e rest ih =>
    have hstep : sdGet (classifyStep st e).unknown name = sdGet st.unknown name := by
      unfold classifyStep
      by_cases ht : pyTruthyQ (evalNum e.2.2 []).1 = true
      · simp only [ht, if_true]
      · simp only [ht, Bool.false_eq_true, if_false]
        rw [sdGet_insert]
        rw [if_neg]
        rw [← hwf e (List.mem_cons_self e rest)]
        exact hne e (List.mem_cons_self e rest)
    rw [List.foldl_cons,
      ih (classifyStep st e) (fun e' he' => hwf e' (List.mem_cons_of_mem e he'))
        (fun e' he' => hne e' (List.mem_cons_of_mem e he')), hstep]

lemma classify_fold_zero (entries : SDictL PExpr) (st : ClassifyState)
    (name : String)
    (hwf : ∀ e ∈ entries, e.1 = normKey e.2.1)
    (hnd : (entries.map (fun e => e.1)).Nodup)
    (hz : sdGet entries name = some (.pnum 0) ∨
      sdGet entries name = some (.pexpr (.num 0))) :
    sdGet (entries.foldl classifyStep st).unknown name = some (none, []) := by
  induction entries generalizing st with
  | nil => rcases hz with h | h <;> simp [sdGet] at h
  | cons e rest ih =>
    by_cases he : e.1 = normKey name
    · -- the head is the zero parameter; its classification marks it unknown
      have hpe : e.2.2 = PExpr.pnum 0 ∨ e.2.2 = PExpr.pexpr (.num 0) := by
        unfold sdGet at hz
        rw [List.find?_cons_of_pos _ (by simp [he])] at hz
        rcases hz with h | h
        · exact Or.inl (by simpa using h)
        · exact Or.inr (by simpa using h)
      have hstep : sdGet (classifyStep st e).unknown name = some (none, []) := by
        unfold classifyStep
        have hr : evalNum e.2.2 [] = (some 0, none, []) := by
          rcases hpe with h | h <;> rw [h] <;> rfl
        rw [hr]
        simp only [pyTruthyQ, show ((0 : ℚ) != 0) = false from rfl,
          Bool.false_eq_true, if_false]
        rw [sdGet_insert]
        rw [if_pos]
        · rfl
        · rw [← hwf e (List.mem_cons_self e rest)]
          exact he
      have hrest : ∀ e' ∈ rest, e'.1 ≠ normKey name := by
        intro e' he' hcontra
        simp only [List.map_cons, List.nodup_cons] at hnd
        apply hnd.1
        rw [he, ← hcontra]
        exact List.mem_map.mpr ⟨e', he', rfl⟩
      rw [List.foldl_cons,
        classify_fold_frame rest (classifyStep st e) name
          (fun e' he' => hwf e' (List.mem_cons_of_mem e he')) hrest, hstep]
    · have hz' : sdGet rest name = some (.pnum 0) ∨
          sdGet rest name = some (.pexpr (.num 0)) := by
        unfold sdGet at hz ⊢
        rwa [List.find?_cons_of_neg _ (by simp [he])] at hz
      rw [List.foldl_cons]
      exact ih (classifyStep st e)
        (fun e' he' => hwf e' (List.mem_cons_of_mem e he'))
        (by simp only [List.map_cons, List.nodup_cons] at hnd; exact hnd.2) hz'

/-- If `unknown_params` holds an entry with no AST and no recorded
dependencies, every pass of the fixpoint loop raises "It should be possible
to evaluate" (for it or for an entry before it). -/
lemma resolvePass_dead (known st : SDictL ℚ) (res : SDictL PExpr)
    (unk : SDictL (Option Expr × List String))
    (h : ∃ p ∈ unk, p.2.2 = ((none : Option Expr), ([] : List String))) :
    ∃ ck, resolvePass known st res unk = .error (.notEvaluable ck) := by
  induction unk generalizing st res with
  | nil => obtain ⟨p, hp, _⟩ := h; simp at hp
  | cons entry rest ih =>
    obtain ⟨lk, ck, ast, refs⟩ := entry
    obtain ⟨p, hp, hdead⟩ := h
    rcases List.mem_cons.mp hp with hpe | hpr
    · subst hpe
      obtain ⟨h1a, h1r⟩ : ast = none ∧ refs = [] := by
        simpa using hdead
      subst h1a
      subst h1r
      refine ⟨ck, ?_⟩
      unfold resolvePass
      simp [evalAstOpt, pyTruthyQ]
    · unfold resolvePass
      by_cases hc : refs.all (fun r => (sdKeysCased known).contains r) = true
      · simp only [hc, if_true]
        by_cases hv : pyTruthyQ (evalAstOpt ast st) = true
        · simp only [hv, if_true]
          exact ih (sdInsert st ck ((evalAstOpt ast st).getD 0))
            (sdInsert res ck (.pnum ((evalAstOpt ast st).getD 0)))
            ⟨p, hpr, hdead⟩
        · simp only [hv, Bool.false_eq_true, if_false]
          exact ⟨ck, rfl⟩
      · simp only [hc, Bool.false_eq_true, if_false]
        obtain ⟨ck', hck'⟩ := ih st res ⟨p, hpr, hdead⟩
        exact ⟨ck', by rw [hck']; rfl⟩

/-- **C9.** `evaluate_parameters_for_scenario` and parameters evaluating to
the number 0: a parameter of the merged map whose stored expression is the
constant 0 (numeric literal or the string `"0"`) is classified as unresolved
with no AST and no dependencies (`if not value` is Python truthiness), and
the whole resolution then always raises — with the "It should be possible to
evaluate the parameter" exception when the dependency graph is acyclic;
moreover a base parameter whose default value is the falsy number 0 is
dropped from the initial merged map by `if p.default_value`. -/
theorem zero_parameter_raises (base : List Parameter)
    (scen : List (String × PExpr)) (name : String)
    (hz : sdGet (mergedParams base scen) name = some (.pnum 0) ∨
      sdGet (mergedParams base scen) name = some (.pexpr (.num 0))) :
    sdGet (classifyParams (mergedParams base scen)).unknown name =
        some (none, []) ∧
      (∃ e, evaluateParametersForScenario base scen = .error e) ∧
      (hasCycleEdges (depEdges (classifyParams (mergedParams base scen)).unknown) =
          false →
        ∃ ck, evaluateParametersForScenario base scen =
          .error (.notEvaluable ck)) ∧
      (∀ (b2 : List Parameter) (s2 : List (String × PExpr)) (p : Parameter),
        p ∈ b2 →
        (∀ q ∈ b2, normKey q.name = normKey p.name →
          q.default_value = some (.pnum 0) ∨ q.default_value = none) →
        (∀ kv ∈ s2, normKey kv.1 ≠ normKey p.name) →
        sdGet (mergedParams b2 s2) p.name = none) := by
  obtain ⟨hwf, hnd⟩ := mergedParams_wf base scen
  have hA : sdGet (classifyParams (mergedParams base scen)).unknown name =
      some (none, []) :=
    classify_fold_zero _ _ name hwf hnd hz
  have hmem : ∃ p ∈ (classifyParams (mergedParams base scen)).unknown,
      p.2.2 = ((none : Option Expr), ([] : List String)) := by
    unfold sdGet at hA
    cases hfind : (classifyParams (mergedParams base scen)).unknown.find?
        (fun e => e.1 == normKey name) with
    | none => rw [hfind] at hA; simp at hA
    | some p =>
      rw [hfind] at hA
      exact ⟨p, List.mem_of_find?_eq_some hfind, by simpa using hA⟩
  have hB : ∀ hcyc : hasCycleEdges
        (depEdges (classifyParams (mergedParams base scen)).unknown) = false,
      ∃ ck, evaluateParametersForScenario base scen =
        .error (.notEvaluable ck) := by
    intro hcyc
    unfold evaluateParametersForScenario
    rw [hcyc]
    simp only [Bool.false_eq_true, if_false]
    obtain ⟨ck, hck⟩ := resolvePass_dead (classifyParams (mergedParams base scen)).known
      (classifyParams (mergedParams base scen)).known
      (classifyParams (mergedParams base scen)).result
      (classifyParams (mergedParams base scen)).unknown hmem
    refine ⟨ck, ?_⟩
    unfold resolveLoop
    rw [hck]
  refine ⟨hA, ?_, hB, ?_⟩
  · by_cases hcyc : hasCycleEdges
        (depEdges (classifyParams (mergedParams base scen)).unknown) = true
    · refine ⟨.typeError, ?_⟩
      unfold evaluateParametersForScenario
      rw [hcyc]
      rfl
    · obtain ⟨ck, hck⟩ := hB (Bool.eq_false_iff.mpr hcyc)
      exact ⟨.notEvaluable ck, hck⟩
  · intro b2 s2 p hpmem hcoll hscen
    unfold mergedParams
    have hstep : ∀ (d : SDictL PExpr) (q : Parameter),
        (normKey q.name = normKey p.name →
          q.default_value = some (.pnum 0) ∨ q.default_value = none) →
        sdGet d p.name = none →
        sdGet (match q.default_value with
          | some pe => if pexprTruthy pe then sdInsert d q.name pe else d
          | none => d) p.name = none := by
      intro d q hq hd
      cases hqd : q.default_value with
      | none => exact hd
      | some pe =>
        by_cases ht : pexprTruthy pe = true
        · by_cases hn : normKey q.name = normKey p.name
          · rcases hq hn with h | h
            · rw [hqd] at h
              injection h with h
              rw [h] at ht
              simp [pexprTruthy] at ht
            · rw [hqd] at h
              exact absurd h (by simp)
          · simp only [ht, if_true]
            rw [sdGet_insert, if_neg hn]
            exact hd
        · simp only [ht, Bool.false_eq_true, if_false]
          exact hd
    have hbasefold : ∀ (l : List Parameter) (d : SDictL PExpr),
        (∀ q ∈ l, normKey q.name = normKey p.name →
          q.default_value = some (.pnum 0) ∨ q.default_value = none) →
        sdGet d p.name = none →
        sdGet (l.foldl (fun d p' =>
          match p'.default_value with
          | some pe => if pexprTruthy pe then sdInsert d p'.name pe else d
          | none => d) d) p.name = none := by
      intro l
      induction l with
      | nil => intro d _ hd; exact hd
      | cons q rest ih =>
        intro d hl hd
        rw [List.foldl_cons]
        exact ih _ (fun q' hq' => hl q' (List.mem_cons_of_mem q hq'))
          (hstep d q (hl q (List.mem_cons_self q rest)) hd)
    have hscenfold : ∀ (l : List (String × PExpr)) (d : SDictL PExpr),
        (∀ kv ∈ l, normKey kv.1 ≠ normKey p.name) →
        sdGet d p.name = none →
        sdGet (l.foldl (fun d kv => sdInsert d kv.1 kv.2) d) p.name = none := by
      intro l
      induction l with
      | nil => intro d _ hd; exact hd
      | cons kv rest ih =>
        intro d hl hd
        rw [List.foldl_cons]
        refine ih _ (fun kv' hkv' => hl kv' (List.mem_cons_of_mem kv hkv')) ?_
        rw [sdGet_insert, if_neg (hl kv (List.mem_cons_self kv rest))]
        exact hd
    exact hscenfold s2 _ hscen (hbasefold b2 [] hcoll rfl)

instance exceptDecEq {ε α : Type} [DecidableEq ε] [DecidableEq α] :
    DecidableEq (Except ε α) := fun x y =>
  match x, y with
  | .ok a, .ok b =>
    if h : a = b then isTrue (by rw [h])
    else isFalse (by intro hh; cases hh; exact h rfl)
  | .ok _, .error _ => isFalse (by intro hh; cases hh)
  | .error _, .ok _ => isFalse (by intro hh; cases hh)
  | .error e, .error f =>
    if h : e = f then isTrue (by rw [h])
    else isFalse (by intro hh; cases hh; exact h rfl)

section ResolverConcrete

set_option allowUnsafeReducibility true

attribute [local semireducible] Rat.add Rat.mul Rat.sub Rat.inv

/-- Base parameter `z` whose default is the constant expression string "0". -/
def zeroBase : List Parameter := [⟨"z", some (.pexpr (.num 0))⟩]

theorem zero_parameter_raises_witness :
    (sdGet (mergedParams zeroBase []) "z" = some (.pnum 0) ∨
        sdGet (mergedParams zeroBase []) "z" = some (.pexpr (.num 0))) ∧
      (sdGet (classifyParams (mergedParams zeroBase [])).unknown "z" =
          some (none, []) ∧
        (∃ e, evaluateParametersForScenario zeroBase [] = .error e) ∧
        (hasCycleEdges (depEdges (classifyParams (mergedParams zeroBase [])).unknown) =
            false →
          ∃ ck, evaluateParametersForScenario zeroBase [] =
            .error (.notEvaluable ck)) ∧
        (∀ (b2 : List Parameter) (s2 : List (String × PExpr)) (p : Parameter),
          p ∈ b2 →
          (∀ q ∈ b2, normKey q.name = normKey p.name →
            q.default_value = some (.pnum 0) ∨ q.default_value = none) →
          (∀ kv ∈ s2, normKey kv.1 ≠ normKey p.name) →
          sdGet (mergedParams b2 s2) p.name = none)) :=
  ⟨Or.inr (by decide), zero_parameter_raises zeroBase [] "z" (Or.inr (by decide))⟩

/-- Parameters `a = "b"`, `b = "a"`: a circular dependency. -/
def cyclicBase : List Parameter :=
  [⟨"a", some (.pexpr (.param "b"))⟩, ⟨"b", some (.pexpr (.param "a"))⟩]

/-- **C5.** For a parameter set with the circular dependency a↔b, the
dependency cycle is detected and `evaluate_parameters_for_scenario` raises
without returning a result map — but the raised exception is a `TypeError`
from `':: '.join(cycles)` (whose elements are lists, not strings), not the
intended `Exception` reporting the cycle: the failure never names the cycle. -/
theorem circular_parameters_raise_typeerror :
    hasCycleEdges (depEdges (classifyParams (mergedParams cyclicBase [])).unknown) =
        true ∧
      evaluateParametersForScenario cyclicBase [] = .error .typeError := by
  constructor
  · decide
  · decide

/-- Parameters `a = 1`, `b = "a + 1"`, `c = "b + 1"`: an acyclic dependency
chain of depth 2. -/
def chainBase : List Parameter :=
  [⟨"a", some (.pnum 1)⟩,
   ⟨"b", some (.pexpr (.add (.param "a") (.num 1)))⟩,
   ⟨"c", some (.pexpr (.add (.param "b") (.num 1)))⟩]

/-- **C4.** The acyclic chain a=1, b=a+1, c=b+1 makes
`evaluate_parameters_for_scenario` raise "Could not evaluate the following
parameters: c" instead of returning {a:1, b:2, c:3}: the fixpoint loop tests
`params.issubset(known_params)` against `known_params`, which is never
extended with newly resolved parameters (only `state` is), so the loop can
never resolve a parameter that depends on another resolved-in-the-loop
parameter and the claimed result map is not produced. -/
theorem chained_parameters_unresolved :
    hasCycleEdges (depEdges (classifyParams (mergedParams chainBase [])).unknown) =
        false ∧
      evaluateParametersForScenario chainBase [] =
        .error (.unresolvedParams ["c"]) := by
  constructor
  · decide
  · decide

end ResolverConcrete

/-! ## The per-scenario weight passes of `flow_graph_solver`

`flow_graph_solver` builds one `relations` digraph, resolves parameter-free
weight expressions once (lines 541–546), and then, inside the scenario /
time-period loops, overwrites each truthy edge weight with its value under
the *current* scenario's parameters (lines 584–592).  The weight list passed
to `FlowGraph(relations)` is the per-unit input of the downstream
computation. -/

/-- A weight attribute of the `relations` graph: an already-resolved number
or a still-symbolic expression (AST). -/
inductive WVal where
  | wnum (q : ℚ)
  | wast (e : Expr)
deriving DecidableEq, Repr

/-- An edge of the `relations` digraph. -/
structure REdge where
  src : Node
  dst : Node
  w : Option WVal
deriving DecidableEq, Repr

/-- Python truthiness of a weight attribute (`if expression:`): `None` and
the number 0.0 are falsy, a non-empty expression/AST is truthy. -/
def wvalTruthy : Option WVal → Bool
  | none => false
  | some (.wnum q) => q != 0
  | some (.wast _) => true

/-- First pass (lines 541–546): truthy weights are evaluated against the
global state; `data["weight"] = ifnull(value, ast)` stores the value when it
is not `None` (also 0.0) and the AST otherwise. -/
def firstWeightPass (st : SDictL ℚ) (es : List REdge) : List REdge :=
  es.map (fun e =>
    if wvalTruthy e.w then
      match e.w with
      | some (.wnum q) => { e with w := some (.wnum q) }
      | some (.wast ex) =>
        match evalE st ex with
        | some q => { e with w := some (.wnum q) }
        | none => { e with w := some (.wast ex) }
      | none => e
    else e)

/-- Second pass (lines 584–592), run once per scenario/time-period *on the
shared graph*: every truthy weight is evaluated against the scenario state; a
falsy result raises, otherwise `data["weight"] = value` overwrites the
attribute in place. -/
def scenarioWeightPass (params : SDictL ℚ) : List REdge → Except PyErr (List REdge)
  | [] => .ok []
  | e :: rest =>
    if wvalTruthy e.w then
      match e.w with
      | some (.wnum q) =>
        (scenarioWeightPass params rest).map (fun r => { e with w := some (.wnum q) } :: r)
      | some (.wast ex) =>
        if pyTruthyQ (evalE params ex) then
          (scenarioWeightPass params rest).map
            (fun r => { e with w := some (.wnum ((evalE params ex).getD 0)) } :: r)
        else
          .error .cannotEvaluateWeight
      | none => (scenarioWeightPass params rest).map (fun r => e :: r)
    else
      (scenarioWeightPass params rest).map (fun r => e :: r)

/-- The scenario loop: the mutated `relations` edge list is threaded from one
scenario to the next; the list of per-unit weight lists (the inputs handed to
`FlowGraph`) is returned. -/
def runScenarios (es : List REdge) : List (SDictL ℚ) → Except PyErr (List (List REdge))
  | [] => .ok []
  | params :: rest =>
    match scenarioWeightPass params es with
    | .error e => .error e
    | .ok es' => (runScenarios es' rest).map (fun r => es' :: r)

/-- The weight-resolution pipeline of `flow_graph_solver`: first pass against
the global state (no scenario parameters), then one second pass per scenario
on the shared graph. -/
def solverUnits (es : List REdge) (scenarios : List (SDictL ℚ)) :
    Except PyErr (List (List REdge)) :=
  runScenarios (firstWeightPass [] es) scenarios

section SolverConcrete

set_option allowUnsafeReducibility true

attribute [local semireducible] Rat.add Rat.mul Rat.sub Rat.inv

/-- One flow edge A→B whose weight is the parameter expression `p`. -/
def sharedRel : List REdge := [⟨"A", "B", some (.wast (.param "p"))⟩]

/-- Scenario parameters p = 2. -/
def s1params : SDictL ℚ := [("p", "p", 2)]

/-- Scenario parameters p = 3. -/
def s2params : SDictL ℚ := [("p", "p", 3)]

/-- **C7.** The result of a (scenario, time-period) unit of work does *not*
depend only on that unit's resolved-parameter map: resolving the weight
expression `p` overwrites the shared edge attribute with scenario 1's value
(2), so the unit for scenario 2 (p = 3) receives weight 2 instead of 3 —
running scenario 2 alone yields weight 3.  Shared mutable state (the
`relations` graph) leaks between units. -/
theorem scenario_weights_leak_between_units :
    solverUnits sharedRel [s1params, s2params] =
        .ok [[⟨"A", "B", some (.wnum 2)⟩], [⟨"A", "B", some (.wnum 2)⟩]] ∧
      solverUnits sharedRel [s2params] = .ok [[⟨"A", "B", some (.wnum 3)⟩]] ∧
      ([⟨"A", "B", some (.wnum 2)⟩] : List REdge) ≠ [⟨"A", "B", some (.wnum 3)⟩] := by
  refine ⟨by decide, by decide, by decide⟩

end SolverConcrete

/-! ## The scale propagation graph
(`create_scales_graph`, `set_update_scales_graph`)

Values are pint quantities: a magnitude times an opaque unit tag
(`v * ureg(unit)`); multiplying by a scalar edge weight keeps the unit, so a
quantity is modelled as a pair (magnitude, unit). -/

/-- A propagated quantity: magnitude and (opaque) unit tag. -/
abbrev Qty := ℚ × String

/-- A `FactorsRelationScaleObservation`: origin, destination, and the scale
expression (`quantity`). -/
structure ScaleRel where
  origin : Node
  dest : Node
  quantity : PExpr
deriving DecidableEq, Repr

/-- One edge of the scales graph as stored by `create_scales_graph`:
`G.add_edge(origin, destination, ast=ast, value=value)` after evaluating the
quantity against an empty state. -/
structure ScaleEdge where
  origin : Node
  dest : Node
  ast : Option Expr
  value : Option ℚ
deriving DecidableEq, Repr

/-- The scales graph: edges, all nodes, and the "beginning" nodes (origins
that never appear as destinations). -/
structure ScalesGraph where
  edges : List ScaleEdge
  nodes : List Node
  beginning : List Node
deriving DecidableEq, Repr

/-- The edge-building loop of `create_scales_graph`: evaluate each quantity
against the empty state, add the edge, and fail when a destination repeats. -/
def buildScaleEdges :
    List ScaleRel → List ScaleEdge → List Node → List Node →
    Except PyErr (List ScaleEdge × List Node × List Node)
  | [], es, origins, dests => .ok (es, origins, dests)
  | r :: rest, es, origins, dests =>
    let t := evalNum r.quantity []
    if dests.contains r.dest then
      .error .duplicateScaleDestination
    else
      buildScaleEdges rest (es ++ [⟨r.origin, r.dest, t.2.1, t.1⟩])
        (origins ++ [r.origin]) (dests ++ [r.dest])

/-- `create_scales_graph`: build the edges, collect the nodes, and mark as
"beginning" the origins that are never destinations. -/
def createScalesGraph (rels : List ScaleRel) : Except PyErr ScalesGraph :=
  match buildScaleEdges rels [] [] [] with
  | .error e => .error e
  | .ok (es, origins, dests) =>
    .ok { edges := es
          nodes := (es.foldl (fun acc e => acc ++ [e.origin, e.dest]) []).dedup
          beginning := (origins.filter (fun o => !dests.contains o)).dedup }

/-- Node-keyed attribute maps (`graph.nodes[i]["value"]`); node identity is
exact (Python object identity / hash on `Factor`). -/
def aInsert {α : Type} (d : List (Node × α)) (k : Node) (v : α) : List (Node × α) :=
  if d.any (fun p => p.1 == k) then
    d.map (fun p => if p.1 == k then (k, v) else p)
  else
    d ++ [(k, v)]

/-- Lookup in a node-keyed attribute map. -/
def aGet {α : Type} (d : List (Node × α)) (k : Node) : Option α :=
  (d.find? (fun p => p.1 == k)).map (fun p => p.2)

/-- A resolved scale edge: origin, destination, evaluated weight. -/
abbrev WEdge := Node × Node × ℚ

/-- Evaluate the beginning values (`graph.nodes[i]["value"] = v * unit`); a
falsy evaluation raises "Could not evaluate expression". -/
def evalBeginnings (params : SDictL ℚ) :
    List (Node × PExpr × String) → List (Node × Qty) →
    Except PyErr (List (Node × Qty))
  | [], vals => .ok vals
  | b :: rest, vals =>
    let v := (evalNum b.2.1 params).1
    if pyTruthyQ v then
      evalBeginnings params rest (aInsert vals b.1 (v.getD 0, b.2.2))
    else
      .error .cannotEvaluateBeginning

/-- Evaluate every edge's scale expression against the parameters
(`if ast:` — edges whose quantity was already a constant keep their stored
value); a falsy evaluation raises "Could not evaluate edge scale
expression". -/
def resolveScaleEdges (params : SDictL ℚ) :
    List ScaleEdge → Except PyErr (List WEdge)
  | [] => .ok []
  | e :: rest =>
    match e.ast with
    | some ex =>
      if pyTruthyQ (evalE params ex) then
        (resolveScaleEdges params rest).map
          (fun r => (e.origin, e.dest, (evalE params ex).getD 0) :: r)
      else
        .error .cannotEvaluateScaleEdge
    | none =>
      (resolveScaleEdges params rest).map
        (fun r => (e.origin, e.dest, e.value.getD 0) :: r)

/-- The successors of `i` with the evaluated edge weights
(`graph.successors(i)` together with `graph.edges[i, suc]["value"]`). -/
def succsW (es : List WEdge) (i : Node) : List (Node × ℚ) :=
  (es.filter (fun e => e.1 == i)).map (fun e => (e.2.1, e.2.2))

/-- The inner loop of `compute_scaled_nodes` for one node: for every
successor, `graph.nodes[suc]["value"] = graph.nodes[i]["value"] *
graph.edges[i, suc]["value"]` (the parent value is re-read at each write). -/
def writeSucs (es : List WEdge) (vals : List (Node × Qty)) (i : Node) :
    List (Node × Qty) :=
  (succsW es i).foldl
    (fun vs sw =>
      match aGet vs i with
      | some x => aInsert vs sw.1 (x.1 * sw.2, x.2)
      | none => vs)
    vals

/-- `compute_scaled_nodes`: depth-first propagation — for each frontier node
in turn, write its successors and recurse into them before moving on
(`compute_scaled_nodes(tmp)` is inside the `for` loop).  The fuel bounds the
recursion depth (the Python recursion terminates because the reachable part
of a scales graph is acyclic). -/
def computeScaled (es : List WEdge) :
    ℕ → List (Node × Qty) → List Node → List (Node × Qty)
  | 0, vals, _ => vals
  | fuel + 1, vals, frontier =>
    frontier.foldl
      (fun vs i =>
        computeScaled es fuel (writeSucs es vs i)
          ((succsW es i).map (fun sw => sw.1)))
      vals

/-- The outcome of `set_update_scales_graph`: the node values and the
resolved edge weights written into the graph. -/
structure ScaleUpdateResult where
  values : List (Node × Qty)
  edges : List WEdge
deriving DecidableEq, Repr

/-- `set_update_scales_graph`: reject direct values on non-beginning nodes,
evaluate the defined beginning values and every edge weight, then propagate
from the defined beginning nodes.  `initVals` are the `"value"` attributes
already present on the graph's nodes (an empty list for a fresh graph). -/
def setUpdateScalesGraph (g : ScalesGraph) (params : SDictL ℚ)
    (bv : List (Node × PExpr × String)) (initVals : List (Node × Qty)) :
    Except PyErr ScaleUpdateResult :=
  if ((g.nodes.filter (fun n => !g.beginning.contains n)).filter
      (fun n => (bv.map (fun p => p.1)).contains n)).isEmpty = false then
    .error .nonBeginningObserved
  else
    match evalBeginnings params (bv.filter (fun p => g.beginning.contains p.1)) initVals with
    | .error e => .error e
    | .ok vals0 =>
      match resolveScaleEdges params g.edges with
      | .error e => .error e
      | .ok res =>
        .ok { values := computeScaled res (g.edges.length + 1) vals0
                ((bv.filter (fun p => g.beginning.contains p.1)).map (fun p => p.1))
              edges := res }

/-! ### Attribute-map and reachability lemmas for the scales graph -/

lemma aGet_insert {α : Type} (d : List (Node × α)) (k k' : Node) (v : α) :
    aGet (aInsert d k v) k' = if k = k' then some v else aGet d k' := by
  unfold aInsert aGet
  by_cases hmem : d.any (fun p => p.1 == k) = true
  · rw [if_pos hmem]
    by_cases hkk : k = k'
    · subst hkk
      rw [if_pos rfl]
      induction d with
      | nil => simp at hmem
      | cons p d ih =>
        by_cases hp : p.1 = k
        · have h1 : (p.1 == k) = true := by simp [hp]
          simp only [List.map_cons, h1, if_true]
          rw [List.find?_cons_of_pos _ (by simp)]
          rfl
        · have h1 : (p.1 == k) = false := by simp [hp]
          simp only [List.map_cons, h1, Bool.false_eq_true, if_false]
          rw [List.find?_cons_of_neg _ (by simp [hp])]
          simp only [List.any_cons, h1, Bool.false_or] at hmem
          exact ih hmem
    · rw [if_neg hkk]
      induction d with
      | nil => rfl
      | cons p d ih =>
        by_cases hp : p.1 = k
        · have h1 : (p.1 == k) = true := by simp [hp]
          simp only [List.map_cons, h1, if_true]
          rw [List.find?_cons_of_neg _ (by simp [hkk]),
            List.find?_cons_of_neg _ (by simp [hp, hkk])]
          by_cases hmem2 : d.any (fun p => p.1 == k) = true
          · exact ih hmem2
          · -- no further k entry: the map is the identity on d
            have hcong : d.map (fun p => if p.1 == k then (k, v) else p) =
                d.map id := by
              apply List.map_congr_left
              intro q hq
              have : (q.1 == k) = false := by
                by_contra hc
                simp only [Bool.not_eq_false, beq_iff_eq] at hc
                exact hmem2 (List.any_eq_true.mpr ⟨q, hq, by simp [hc]⟩)
              simp [this]
            rw [hcong, List.map_id]
        · have h1 : (p.1 == k) = false := by simp [hp]
          simp only [List.map_cons, h1, Bool.false_eq_true, if_false]
          by_cases hp' : p.1 = k'
          · rw [List.find?_cons_of_pos _ (by simp [hp']),
              List.find?_cons_of_pos _ (by simp [hp'])]
          · rw [List.find?_cons_of_neg _ (by simp [hp']),
              List.find?_cons_of_neg _ (by simp [hp'])]
            simp only [List.any_cons, h1, Bool.false_or] at hmem
            exact ih hmem
  · rw [if_neg hmem]
    by_cases hkk : k = k'
    · subst hkk
      rw [if_pos rfl]
      induction d with
      | nil =>
        simp only [List.nil_append]
        rw [List.find?_cons_of_pos _ (by simp)]
        rfl
      | cons p d ih =>
        simp only [List.any_cons, Bool.or_eq_true, not_or] at hmem
        rw [List.cons_append, List.find?_cons_of_neg _ (by simpa using hmem.1)]
        exact ih (by simpa using hmem.2)
    · rw [if_neg hkk]
      induction d with
      | nil =>
        simp only [List.nil_append]
        rw [List.find?_cons_of_neg _ (by simp [hkk])]
      | cons p d ih =>
        simp only [List.any_cons, Bool.or_eq_true, not_or] at hmem
        by_cases hp' : p.1 = k'
        · rw [List.cons_append, List.find?_cons_of_pos _ (by simp [hp']),
            List.find?_cons_of_pos _ (by simp [hp'])]
        · rw [List.cons_append, List.find?_cons_of_neg _ (by simp [hp']),
            List.find?_cons_of_neg _ (by simp [hp'])]
          exact ih (by simpa using hmem.2)

/-- The one-step flow relation of a resolved scales-edge list. -/
def eRelW (E : List WEdge) (u v : Node) : Prop := ∃ w, (u, v, w) ∈ E

/-- Uniqueness of the incoming edge (a destination appears at most once). -/
lemma in_edge_unique (E : List WEdge)
    (hd : (E.map (fun e => e.2.1)).Nodup) {u v x : Node} {w1 w2 : ℚ}
    (h1 : (u, x, w1) ∈ E) (h2 : (v, x, w2) ∈ E) : u = v := by
  have := List.inj_on_of_nodup_map hd h1 h2 rfl
  exact congrArg Prod.fst this

lemma eRel_in_unique (E : List WEdge)
    (hd : (E.map (fun e => e.2.1)).Nodup) {u v x : Node}
    (h1 : eRelW E u x) (h2 : eRelW E v x) : u = v := by
  obtain ⟨w1, h1⟩ := h1
  obtain ⟨w2, h2⟩ := h2
  exact in_edge_unique E hd h1 h2

/-- With in-degree ≤ 1, two chains into the same node are comparable. -/
lemma reach_merge (E : List WEdge)
    (hd : (E.map (fun e => e.2.1)).Nodup) {a b x : Node}
    (ha : Relation.ReflTransGen (eRelW E) a x)
    (hb : Relation.ReflTransGen (eRelW E) b x) :
    Relation.ReflTransGen (eRelW E) a b ∨ Relation.ReflTransGen (eRelW E) b a := by
  induction hb generalizing a with
  | refl => exact Or.inl ha
  | tail hbu hux ih =>
    rename_i u x'
    rcases Relation.ReflTransGen.cases_tail ha with hax | ⟨c, hac, hcx⟩
    · subst hax
      exact Or.inr (Relation.ReflTransGen.tail hbu hux)
    · have : c = u := eRel_in_unique E hd hcx hux
      subst this
      exact ih hac

/-- Along an edge the rank strictly increases; along a nonempty chain the
rank strictly increases. -/
lemma transGen_rank_lt (E : List WEdge) (rank : Node → ℕ)
    (hr : ∀ e ∈ E, rank e.1 < rank e.2.1) {a b : Node}
    (h : Relation.TransGen (eRelW E) a b) : rank a < rank b := by
  induction h with
  | single hab => obtain ⟨w, hw⟩ := hab; exact hr _ hw
  | tail _ hbc ih =>
    obtain ⟨w, hw⟩ := hbc
    exact lt_trans ih (hr _ hw)

/-- A ranked edge list is acyclic. -/
lemma acyc_of_rank (E : List WEdge) (rank : Node → ℕ)
    (hr : ∀ e ∈ E, rank e.1 < rank e.2.1) (n : Node) :
    ¬ Relation.TransGen (eRelW E) n n := fun h =>
  lt_irrefl _ (transGen_rank_lt E rank hr h)

lemma succsW_mem (es : List WEdge) (i s : Node) (w : ℚ) :
    (s, w) ∈ succsW es i ↔ (i, s, w) ∈ es := by
  unfold succsW
  constructor
  · intro h
    obtain ⟨e, he, hee⟩ := List.mem_map.mp h
    obtain ⟨a, b, c⟩ := e
    obtain ⟨hmem, hsrc⟩ := List.mem_filter.mp he
    simp only [beq_iff_eq] at hsrc
    simp only [Prod.mk.injEq] at hee
    subst hsrc
    obtain ⟨h1, h2⟩ := hee
    subst h1
    subst h2
    exact hmem
  · intro h
    exact List.mem_map.mpr ⟨(i, s, w), List.mem_filter.mpr ⟨h, by simp⟩, rfl⟩

lemma succsW_dests_nodup (es : List WEdge) (i : Node)
    (hd : (es.map (fun e => e.2.1)).Nodup) :
    ((succsW es i).map (fun sw => sw.1)).Nodup := by
  unfold succsW
  rw [List.map_map]
  have hsub : (es.filter (fun e => e.1 == i)).map
      ((fun sw : Node × ℚ => sw.1) ∘ (fun e : WEdge => (e.2.1, e.2.2))) =
      (es.filter (fun e => e.1 == i)).map (fun e => e.2.1) := rfl
  rw [hsub]
  exact List.Nodup.sublist ((List.filter_sublist es).map _) hd

/-! ### The write step of `compute_scaled_nodes` -/

lemma writeFold_frame (i : Node) (l : List (Node × ℚ)) (vals : List (Node × Qty))
    (x : Node) (hx : ∀ sw ∈ l, sw.1 ≠ x) :
    aGet (l.foldl (fun vs sw =>
      match aGet vs i with
      | some x0 => aInsert vs sw.1 (x0.1 * sw.2, x0.2)
      | none => vs) vals) x = aGet vals x := by
  induction l generalizing vals with
  | nil => rfl
  | cons sw l ih =>
    rw [List.foldl_cons]
    rw [ih _ (fun sw' h => hx sw' (List.mem_cons_of_mem sw h))]
    cases h0 : aGet vals i with
    | none => rfl
    | some x0 =>
      simp only
      rw [aGet_insert, if_neg (hx sw (List.mem_cons_self sw l))]

lemma writeFold_mono (i : Node) (l : List (Node × ℚ)) (vals : List (Node × Qty))
    (x : Node) (q : Qty) (hq : aGet vals x = some q) :
    ∃ q', aGet (l.foldl (fun vs sw =>
      match aGet vs i with
      | some x0 => aInsert vs sw.1 (x0.1 * sw.2, x0.2)
      | none => vs) vals) x = some q' := by
  induction l generalizing vals q with
  | nil => exact ⟨q, hq⟩
  | cons sw l ih =>
    rw [List.foldl_cons]
    cases h0 : aGet vals i with
    | none => exact ih vals q hq
    | some x0 =>
      simp only
      by_cases hsx : sw.1 = x
      · exact ih _ _ (by rw [aGet_insert, if_pos hsx])
      · exact ih _ _ (by rw [aGet_insert, if_neg hsx]; exact hq)

lemma writeFold_bound (i : Node) (l : List (Node × ℚ)) (vals : List (Node × Qty))
    (x : Node)
    (h : aGet (l.foldl (fun vs sw =>
      match aGet vs i with
      | some x0 => aInsert vs sw.1 (x0.1 * sw.2, x0.2)
      | none => vs) vals) x ≠ none) :
    aGet vals x ≠ none ∨ ∃ sw ∈ l, sw.1 = x := by
  induction l generalizing vals with
  | nil => exact Or.inl h
  | cons sw l ih =>
    rw [List.foldl_cons] at h
    cases h0 : aGet vals i with
    | none =>
      rw [h0] at h
      rcases ih _ h with h1 | ⟨sw', hsw', hx⟩
      · exact Or.inl h1
      · exact Or.inr ⟨sw', List.mem_cons_of_mem sw hsw', hx⟩
    | some x0 =>
      rw [h0] at h
      simp only at h
      rcases ih _ h with h1 | ⟨sw', hsw', hx⟩
      · by_cases hsx : sw.1 = x
        · exact Or.inr ⟨sw, List.mem_cons_self sw l, hsx⟩
        · rw [aGet_insert, if_neg hsx] at h1
          exact Or.inl h1
      · exact Or.inr ⟨sw', List.mem_cons_of_mem sw hsw', hx⟩

lemma writeFold_written (i : Node) (l : List (Node × ℚ)) (vals : List (Node × Qty))
    (x0 : Qty) (hx : aGet vals i = some x0)
    (hself : ∀ sw ∈ l, sw.1 ≠ i)
    (hnd : (l.map (fun sw => sw.1)).Nodup) :
    ∀ sw ∈ l, aGet (l.foldl (fun vs sw =>
      match aGet vs i with
      | some y => aInsert vs sw.1 (y.1 * sw.2, y.2)
      | none => vs) vals) sw.1 = some (x0.1 * sw.2, x0.2) := by
  induction l generalizing vals with
  | nil => intro sw h; simp at h
  | cons sw0 l ih =>
    intro sw hsw
    rw [List.foldl_cons, hx]
    simp only
    simp only [List.map_cons, List.nodup_cons] at hnd
    rcases List.mem_cons.mp hsw with h | h
    · subst h
      rw [writeFold_frame]
      · rw [aGet_insert, if_pos rfl]
      · intro sw' hsw' hcontra
        exact hnd.1 (hcontra ▸ List.mem_map.mpr ⟨sw', hsw', rfl⟩)
    · apply ih
      · rw [aGet_insert, if_neg (hself sw0 (List.mem_cons_self sw0 l))]
        exact hx
      · intro sw' h' ; exact hself sw' (List.mem_cons_of_mem sw0 h')
      · exact hnd.2
      · exact h

lemma writeSucs_frame (es : List WEdge) (vals : List (Node × Qty)) (i x : Node)
    (hx : ∀ sw ∈ succsW es i, sw.1 ≠ x) :
    aGet (writeSucs es vals i) x = aGet vals x :=
  writeFold_frame i (succsW es i) vals x hx

lemma writeSucs_mono (es : List WEdge) (vals : List (Node × Qty)) (i x : Node)
    (q : Qty) (hq : aGet vals x = some q) :
    ∃ q', aGet (writeSucs es vals i) x = some q' :=
  writeFold_mono i (succsW es i) vals x q hq

lemma writeSucs_bound (es : List WEdge) (vals : List (Node × Qty)) (i x : Node)
    (h : aGet (writeSucs es vals i) x ≠ none) :
    aGet vals x ≠ none ∨ ∃ sw ∈ succsW es i, sw.1 = x :=
  writeFold_bound i (succsW es i) vals x h

lemma writeSucs_written (es : List WEdge) (vals : List (Node × Qty)) (i : Node)
    (x0 : Qty) (hx : aGet vals i = some x0)
    (hself : ∀ sw ∈ succsW es i, sw.1 ≠ i)
    (hnd : ((succsW es i).map (fun sw => sw.1)).Nodup) :
    ∀ sw ∈ succsW es i,
      aGet (writeSucs es vals i) sw.1 = some (x0.1 * sw.2, x0.2) :=
  writeFold_written i (succsW es i) vals x0 hx hself hnd

lemma computeScaled_zero (es : List WEdge) (vals : List (Node × Qty))
    (fr : List Node) : computeScaled es 0 vals fr = vals := rfl

lemma computeScaled_nil (es : List WEdge) (fuel : ℕ) (vals : List (Node × Qty)) :
    computeScaled es (fuel + 1) vals [] = vals := rfl

lemma computeScaled_cons_eq (es : List WEdge) (fuel : ℕ)
    (vals : List (Node × Qty)) (i : Node) (rest : List Node) :
    computeScaled es (fuel + 1) vals (i :: rest) =
      computeScaled es (fuel + 1)
        (computeScaled es fuel (writeSucs es vals i)
          ((succsW es i).map (fun sw => sw.1))) rest := rfl

/-- The central invariant of `compute_scaled_nodes`.  In a scales graph with
at most one incoming edge per node (`hd`) and a rank certifying acyclicity
(`hr`), starting from values on the frontier whose strict descendants are
unvalued, the depth-first propagation (with fuel covering the remaining
depth) (1) changes only strict descendants of the frontier, (2) establishes
the edge recurrence `value(dest) = value(origin) × weight` for every edge
whose origin is not pending, (3) never deletes a value, and (4) creates
values only at nodes reachable from the frontier. -/
lemma computeScaled_spec (E : List WEdge) (rank : Node → ℕ)
    (hd : (E.map (fun e => e.2.1)).Nodup)
    (hr : ∀ e ∈ E, rank e.1 < rank e.2.1 ∧ rank e.2.1 ≤ E.length) :
    ∀ (fuel : ℕ) (frontier : List Node) (vals : List (Node × Qty)) (P : List Node),
    (∀ f ∈ frontier, aGet vals f ≠ none) →
    (∀ f ∈ frontier, ∀ x, Relation.TransGen (eRelW E) f x → aGet vals x = none) →
    (∀ f ∈ frontier, (∃ e ∈ E, e.1 = f ∨ e.2.1 = f) → E.length + 1 ≤ fuel + rank f) →
    (∀ o d w, (o, d, w) ∈ E → o ∉ P → o ∉ frontier →
      ∀ x : Qty, aGet vals o = some x → aGet vals d = some (x.1 * w, x.2)) →
    (∀ f ∈ frontier, ∀ g ∈ frontier, ¬ Relation.TransGen (eRelW E) f g) →
    frontier.Nodup →
    (∀ x, (∀ f ∈ frontier, ¬ Relation.TransGen (eRelW E) f x) →
      aGet (computeScaled E fuel vals frontier) x = aGet vals x) ∧
    (∀ o d w, (o, d, w) ∈ E → o ∉ P →
      ∀ x : Qty, aGet (computeScaled E fuel vals frontier) o = some x →
        aGet (computeScaled E fuel vals frontier) d = some (x.1 * w, x.2)) ∧
    (∀ x q, aGet vals x = some q →
      ∃ q', aGet (computeScaled E fuel vals frontier) x = some q') ∧
    (∀ x, aGet (computeScaled E fuel vals frontier) x ≠ none →
      aGet vals x ≠ none ∨ ∃ f ∈ frontier, Relation.ReflTransGen (eRelW E) f x) := by
  intro fuel
  induction fuel with
  | zero =>
    intro frontier vals P hval hfresh hfuel hinv hpair hnd
    rw [computeScaled_zero]
    refine ⟨fun x _ => rfl, ?_, fun x q hq => ⟨q, hq⟩, fun x hx => Or.inl hx⟩
    intro o d w hE hoP x hx
    by_cases hof : o ∈ frontier
    · exfalso
      have hf := hfuel o hof ⟨(o, d, w), hE, Or.inl rfl⟩
      have hrank := hr (o, d, w) hE
      simp only at hf hrank
      omega
    · exact hinv o d w hE hoP hof x hx
  | succ fuel ihf =>
    intro frontier
    induction frontier with
    | nil =>
      intro vals P hval hfresh hfuel hinv hpair hnd
      rw [computeScaled_nil]
      refine ⟨fun x _ => rfl, ?_, fun x q hq => ⟨q, hq⟩, fun x hx => Or.inl hx⟩
      intro o d w hE hoP x hx
      exact hinv o d w hE hoP (by simp) x hx
    | cons i rest ihr =>
      intro vals P hval hfresh hfuel hinv hpair hnd
      -- notation
      obtain ⟨x0, hx0⟩ : ∃ x0, aGet vals i = some x0 := by
        cases h : aGet vals i with
        | none => exact absurd h (hval i (List.mem_cons_self i rest))
        | some q => exact ⟨q, rfl⟩
      have hedge_of_mem : ∀ sw ∈ succsW E i, (i, sw.1, sw.2) ∈ E := by
        intro sw h
        exact (succsW_mem E i sw.1 sw.2).mp (by rwa [Prod.mk.eta])
      have hself : ∀ sw ∈ succsW E i, sw.1 ≠ i := by
        intro sw hsw hcontra
        have hE := hedge_of_mem sw hsw
        rw [hcontra] at hE
        exact lt_irrefl _ ((hr _ hE).1)
      have hino : i ∉ (succsW E i).map (fun sw => sw.1) := by
        intro hmem
        obtain ⟨sw, hsw, h1⟩ := List.mem_map.mp hmem
        exact hself sw hsw h1
      have hndsucs : ((succsW E i).map (fun sw => sw.1)).Nodup :=
        succsW_dests_nodup E i hd
      have hedge_dest : ∀ x ∈ (succsW E i).map (fun sw => sw.1), eRelW E i x := by
        intro x hx
        obtain ⟨sw, hsw, h1⟩ := List.mem_map.mp hx
        exact ⟨sw.2, h1 ▸ hedge_of_mem sw hsw⟩
      have hreach_i_dest : ∀ s ∈ (succsW E i).map (fun sw => sw.1),
          Relation.TransGen (eRelW E) i s := fun s hs =>
        Relation.TransGen.single (hedge_dest s hs)
      have hlast : ∀ x ∈ (succsW E i).map (fun sw => sw.1), ∀ f,
          Relation.TransGen (eRelW E) f x →
          Relation.ReflTransGen (eRelW E) f i := by
        intro x hx f hfx
        obtain ⟨u, hfu, hux⟩ := Relation.TransGen.tail'_iff.mp hfx
        have : u = i := eRel_in_unique E hd hux (hedge_dest x hx)
        exact this ▸ hfu
      have hnoreach_i : ∀ s ∈ (succsW E i).map (fun sw => sw.1),
          ¬ Relation.ReflTransGen (eRelW E) s i := by
        intro s hs hsi
        rcases Relation.reflTransGen_iff_eq_or_transGen.mp hsi with h1 | h1
        · exact hino (h1 ▸ hs)
        · have hr1 := transGen_rank_lt E rank (fun e he => (hr e he).1) h1
          have hr2 := transGen_rank_lt E rank (fun e he => (hr e he).1)
            (hreach_i_dest s hs)
          omega
      -- facts about vals' = writeSucs E vals i
      have hival : aGet (writeSucs E vals i) i = some x0 := by
        rw [writeSucs_frame E vals i i hself]
        exact hx0
      have hwrit := writeSucs_written E vals i x0 hx0 hself hndsucs
      -- premises of the recursive call into the successors
      have hval1 : ∀ s ∈ (succsW E i).map (fun sw => sw.1),
          aGet (writeSucs E vals i) s ≠ none := by
        intro s hs
        obtain ⟨sw, hsw, h1⟩ := List.mem_map.mp hs
        rw [← h1, hwrit sw hsw]
        simp
      have hfresh1 : ∀ s ∈ (succsW E i).map (fun sw => sw.1), ∀ x,
          Relation.TransGen (eRelW E) s x →
          aGet (writeSucs E vals i) x = none := by
        intro s hs x hsx
        have hxnd : x ∉ (succsW E i).map (fun sw => sw.1) := by
          intro hxd
          exact hnoreach_i s hs (hlast x hxd s hsx)
        rw [writeSucs_frame E vals i x (by
          intro sw hsw hcontra
          exact hxnd (hcontra ▸ List.mem_map.mpr ⟨sw, hsw, rfl⟩))]
        exact hfresh i (List.mem_cons_self i rest) x
          (Relation.TransGen.trans (hreach_i_dest s hs) hsx)
      have hfuel1 : ∀ s ∈ (succsW E i).map (fun sw => sw.1),
          (∃ e ∈ E, e.1 = s ∨ e.2.1 = s) → E.length + 1 ≤ fuel + rank s := by
        intro s hs _
        obtain ⟨w', hw'⟩ := hedge_dest s hs
        have h1 := hfuel i (List.mem_cons_self i rest) ⟨(i, s, w'), hw', Or.inl rfl⟩
        have h2 := (hr (i, s, w') hw').1
        simp only at h1 h2
        omega
      have hinv1 : ∀ o d w, (o, d, w) ∈ E → o ∉ (P ++ rest) →
          o ∉ (succsW E i).map (fun sw => sw.1) →
          ∀ x : Qty, aGet (writeSucs E vals i) o = some x →
            aGet (writeSucs E vals i) d = some (x.1 * w, x.2) := by
        intro o d w hE hoPr hod x hxo
        by_cases hoi : o = i
        · subst hoi
          have hxx0 : x = x0 := by
            rw [hival] at hxo
            exact (Option.some.inj hxo).symm
          subst hxx0
          have hdw : ((d, w) : Node × ℚ) ∈ succsW E o := (succsW_mem E o d w).mpr hE
          exact hwrit (d, w) hdw
        · have hofr : o ∉ (i :: rest) := by
            intro hmem
            rcases List.mem_cons.mp hmem with h1 | h1
            · exact hoi h1
            · exact hoPr (List.mem_append.mpr (Or.inr h1))
          have hvo : aGet vals o = some x := by
            rw [← writeSucs_frame E vals i o (by
              intro sw hsw hcontra
              exact hod (hcontra ▸ List.mem_map.mpr ⟨sw, hsw, rfl⟩))]
            exact hxo
          have hvd := hinv o d w hE
            (fun hc => hoPr (List.mem_append.mpr (Or.inl hc))) hofr x hvo
          have hd_nd : d ∉ (succsW E i).map (fun sw => sw.1) := by
            intro hdd
            obtain ⟨w'', hw''⟩ := hedge_dest d hdd
            exact hoi (in_edge_unique E hd hE hw'')
          rw [writeSucs_frame E vals i d (by
            intro sw hsw hcontra
            exact hd_nd (hcontra ▸ List.mem_map.mpr ⟨sw, hsw, rfl⟩))]
          exact hvd
      have hpair1 : ∀ s1 ∈ (succsW E i).map (fun sw => sw.1),
          ∀ s2 ∈ (succsW E i).map (fun sw => sw.1),
          ¬ Relation.TransGen (eRelW E) s1 s2 := by
        intro s1 h1 s2 h2 hts
        exact hnoreach_i s1 h1 (hlast s2 h2 s1 hts)
      obtain ⟨fr1, inv1, mono1, bound1⟩ := ihf ((succsW E i).map (fun sw => sw.1))
        (writeSucs E vals i) (P ++ rest) hval1 hfresh1 hfuel1 hinv1 hpair1 hndsucs
      -- premises of the tail call on the rest of the frontier
      have hndrest : rest.Nodup := (List.nodup_cons.mp hnd).2
      have hirest : i ∉ rest := (List.nodup_cons.mp hnd).1
      have hrest_no_dest : ∀ f ∈ rest, ∀ x,
          Relation.TransGen (eRelW E) f x →
          x ∉ (succsW E i).map (fun sw => sw.1) := by
        intro f hf x hfx hxd
        have hfi := hlast x hxd f hfx
        rcases Relation.reflTransGen_iff_eq_or_transGen.mp hfi with h1 | h1
        · exact hirest (h1 ▸ hf)
        · exact hpair f (List.mem_cons_of_mem i hf) i (List.mem_cons_self i rest) h1
      have hrest_no_sucreach : ∀ f ∈ rest, ∀ x,
          Relation.TransGen (eRelW E) f x →
          ∀ s ∈ (succsW E i).map (fun sw => sw.1),
          ¬ Relation.TransGen (eRelW E) s x := by
        intro f hf x hfx s hs hsx
        have hix : Relation.ReflTransGen (eRelW E) i x :=
          (Relation.TransGen.trans (hreach_i_dest s hs) hsx).to_reflTransGen
        have hfx' : Relation.ReflTransGen (eRelW E) f x := hfx.to_reflTransGen
        rcases reach_merge E hd hfx' hix with h1 | h1
        · rcases Relation.reflTransGen_iff_eq_or_transGen.mp h1 with h2 | h2
          · exact hirest (h2 ▸ hf)
          · exact hpair f (List.mem_cons_of_mem i hf) i (List.mem_cons_self i rest) h2
        · rcases Relation.reflTransGen_iff_eq_or_transGen.mp h1 with h2 | h2
          · exact hirest (h2 ▸ hf)
          · exact hpair i (List.mem_cons_self i rest) f (List.mem_cons_of_mem i hf) h2
      have hval2 : ∀ f ∈ rest,
          aGet (computeScaled E fuel (writeSucs E vals i)
            ((succsW E i).map (fun sw => sw.1))) f ≠ none := by
        intro f hf
        obtain ⟨q, hq⟩ : ∃ q, aGet vals f = some q := by
          cases h : aGet vals f with
          | none => exact absurd h (hval f (List.mem_cons_of_mem i hf))
          | some q => exact ⟨q, rfl⟩
        obtain ⟨q', hq'⟩ := writeSucs_mono E vals i f q hq
        obtain ⟨q'', hq''⟩ := mono1 f q' hq'
        rw [hq'']
        simp
      have hfresh2 : ∀ f ∈ rest, ∀ x, Relation.TransGen (eRelW E) f x →
          aGet (computeScaled E fuel (writeSucs E vals i)
            ((succsW E i).map (fun sw => sw.1))) x = none := by
        intro f hf x hfx
        rw [fr1 x (hrest_no_sucreach f hf x hfx)]
        have hxd := hrest_no_dest f hf x hfx
        rw [writeSucs_frame E vals i x (by
          intro sw hsw hcontra
          exact hxd (hcontra ▸ List.mem_map.mpr ⟨sw, hsw, rfl⟩))]
        exact hfresh f (List.mem_cons_of_mem i hf) x hfx
      have hfuel2 : ∀ f ∈ rest, (∃ e ∈ E, e.1 = f ∨ e.2.1 = f) →
          E.length + 1 ≤ (fuel + 1) + rank f := fun f hf =>
        hfuel f (List.mem_cons_of_mem i hf)
      have hinv2 : ∀ o d w, (o, d, w) ∈ E → o ∉ P → o ∉ rest →
          ∀ x : Qty, aGet (computeScaled E fuel (writeSucs E vals i)
            ((succsW E i).map (fun sw => sw.1))) o = some x →
            aGet (computeScaled E fuel (writeSucs E vals i)
              ((succsW E i).map (fun sw => sw.1))) d = some (x.1 * w, x.2) := by
        intro o d w hE hoP hor x hx
        exact inv1 o d w hE (by
          intro hc
          rcases List.mem_append.mp hc with h1 | h1
          · exact hoP h1
          · exact hor h1) x hx
      have hpair2 : ∀ f ∈ rest, ∀ g ∈ rest,
          ¬ Relation.TransGen (eRelW E) f g := fun f hf g hg =>
        hpair f (List.mem_cons_of_mem i hf) g (List.mem_cons_of_mem i hg)
      obtain ⟨fr2, inv2, mono2, bound2⟩ := ihr
        (computeScaled E fuel (writeSucs E vals i) ((succsW E i).map (fun sw => sw.1)))
        P hval2 hfresh2 hfuel2 hinv2 hpair2 hndrest
      -- assemble the four conclusions
      rw [computeScaled_cons_eq]
      refine ⟨?_, inv2, ?_, ?_⟩
      · -- frame
        intro x hx
        have hxi := hx i (List.mem_cons_self i rest)
        have hsx : ∀ s ∈ (succsW E i).map (fun sw => sw.1),
            ¬ Relation.TransGen (eRelW E) s x := fun s hs ht =>
          hxi (Relation.TransGen.trans (hreach_i_dest s hs) ht)
        have hxd : x ∉ (succsW E i).map (fun sw => sw.1) := fun hxd =>
          hxi (hreach_i_dest x hxd)
        rw [fr2 x (fun f hf => hx f (List.mem_cons_of_mem i hf)), fr1 x hsx,
          writeSucs_frame E vals i x (by
            intro sw hsw hcontra
            exact hxd (hcontra ▸ List.mem_map.mpr ⟨sw, hsw, rfl⟩))]
      · -- monotone
        intro x q hq
        obtain ⟨q', hq'⟩ := writeSucs_mono E vals i x q hq
        obtain ⟨q'', hq''⟩ := mono1 x q' hq'
        exact mono2 x q'' hq''
      · -- reach bound
        intro x hnn
        rcases bound2 x hnn with h1 | ⟨f, hf, hrfx⟩
        · rcases bound1 x h1 with h2 | ⟨s, hs, hsx⟩
          · rcases writeSucs_bound E vals i x h2 with h3 | ⟨sw, hsw, hswx⟩
            · exact Or.inl h3
            · exact Or.inr ⟨i, List.mem_cons_self i rest,
                Relation.ReflTransGen.single (hswx ▸ hedge_dest sw.1
                  (List.mem_map.mpr ⟨sw, hsw, rfl⟩))⟩
          · exact Or.inr ⟨i, List.mem_cons_self i rest,
              Relation.ReflTransGen.trans
                (hreach_i_dest s hs).to_reflTransGen hsx⟩
        · exact Or.inr ⟨f, List.mem_cons_of_mem i hf, hrfx⟩

lemma contains_true_iff {l : List Node} {x : Node} :
    l.contains x = true ↔ x ∈ l := by
  simp [List.contains]

/-- The resolved edges carry exactly the origin/destination pairs of the
graph's edges. -/
lemma resolveScaleEdges_shape (params : SDictL ℚ) :
    ∀ (edges : List ScaleEdge) (E' : List WEdge),
    resolveScaleEdges params edges = .ok E' →
    E'.map (fun t => (t.1, t.2.1)) = edges.map (fun e => (e.origin, e.dest)) := by
  intro edges
  induction edges with
  | nil =>
    intro E' h
    simp only [resolveScaleEdges] at h
    cases h
    rfl
  | cons e rest ih =>
    intro E' h
    simp only [resolveScaleEdges] at h
    cases hast : e.ast with
    | some ex =>
      rw [hast] at h
      dsimp only at h
      by_cases ht : pyTruthyQ (evalE params ex) = true
      · rw [if_pos ht] at h
        cases hrec : resolveScaleEdges params rest with
        | error er => rw [hrec] at h; cases h
        | ok r =>
          rw [hrec] at h
          cases h
          simp only [List.map_cons]
          rw [ih r hrec]
      · rw [if_neg ht] at h
        cases h
    | none =>
      rw [hast] at h
      dsimp only at h
      cases hrec : resolveScaleEdges params rest with
      | error er => rw [hrec] at h; cases h
      | ok r =>
        rw [hrec] at h
        cases h
        simp only [List.map_cons]
        rw [ih r hrec]

/-- `evalBeginnings` writes only the keys of its input list. -/
lemma evalBeginnings_frame (params : SDictL ℚ) :
    ∀ (l : List (Node × PExpr × String)) (init : List (Node × Qty))
      (v : List (Node × Qty)),
    evalBeginnings params l init = .ok v →
    ∀ x, (∀ b ∈ l, b.1 ≠ x) → aGet v x = aGet init x := by
  intro l
  induction l with
  | nil =>
    intro init v h x _
    cases h
    rfl
  | cons b rest ih =>
    intro init v h x hx
    simp only [evalBeginnings] at h
    by_cases ht : pyTruthyQ (evalNum b.2.1 params).1 = true
    · rw [if_pos ht] at h
      rw [ih _ v h x (fun b' hb' => hx b' (List.mem_cons_of_mem b hb'))]
      rw [aGet_insert, if_neg (hx b (List.mem_cons_self b rest))]
    · rw [if_neg ht] at h
      cases h

/-- The value each defined beginning node receives. -/
lemma evalBeginnings_written (params : SDictL ℚ) :
    ∀ (l : List (Node × PExpr × String)) (init : List (Node × Qty))
      (v : List (Node × Qty)),
    evalBeginnings params l init = .ok v →
    (l.map (fun b => b.1)).Nodup →
    ∀ b ∈ l, aGet v b.1 = some ((evalNum b.2.1 params).1.getD 0, b.2.2) := by
  intro l
  induction l with
  | nil => intro init v _ _ b hb; simp at hb
  | cons b0 rest ih =>
    intro init v h hnd b hb
    simp only [evalBeginnings] at h
    by_cases ht : pyTruthyQ (evalNum b0.2.1 params).1 = true
    · rw [if_pos ht] at h
      simp only [List.map_cons, List.nodup_cons] at hnd
      rcases List.mem_cons.mp hb with h1 | h1
      · subst h1
        rw [evalBeginnings_frame params rest _ v h b.1 (by
          intro b' hb' hcontra
          exact hnd.1 (hcontra ▸ List.mem_map.mpr ⟨b', hb', rfl⟩))]
        rw [aGet_insert, if_pos rfl]
      · exact ih _ v h hnd.2 b h1
    · rw [if_neg ht] at h
      cases h

/-- Keys of the propagated value map come from the input list or the initial
values. -/
lemma evalBeginnings_bound (params : SDictL ℚ) :
    ∀ (l : List (Node × PExpr × String)) (init : List (Node × Qty))
      (v : List (Node × Qty)),
    evalBeginnings params l init = .ok v →
    ∀ x, aGet v x ≠ none → aGet init x ≠ none ∨ ∃ b ∈ l, b.1 = x := by
  intro l
  induction l with
  | nil =>
    intro init v h x hx
    cases h
    exact Or.inl hx
  | cons b rest ih =>
    intro init v h x hx
    simp only [evalBeginnings] at h
    by_cases ht : pyTruthyQ (evalNum b.2.1 params).1 = true
    · rw [if_pos ht] at h
      rcases ih _ v h x hx with h1 | ⟨b', hb', hb'x⟩
      · by_cases hbx : b.1 = x
        · exact Or.inr ⟨b, List.mem_cons_self b rest, hbx⟩
        · rw [aGet_insert, if_neg hbx] at h1
          exact Or.inl h1
      · exact Or.inr ⟨b', List.mem_cons_of_mem b hb', hb'x⟩
    · rw [if_neg ht] at h
      cases h

/-- **C6 (amended).** After `set_update_scales_graph` on a fresh scales graph
(with the construction invariants: at most one scale relation into any node,
acyclic topology — certified by a rank function — and no scale edge into a
beginning node): every defined beginning node holds its evaluated expression
with its own unit; every edge whose origin holds a value propagates it,
`value(dest) = value(origin) × weight`, with the unit carried through
unconverted; and every node not reachable from a defined beginning node is
left with *no* value (not zero).  The returned structure is the whole output
of the function: unset nodes are not reported anywhere. -/
theorem scale_propagation_correct (g : ScalesGraph) (params : SDictL ℚ)
    (bv : List (Node × PExpr × String)) (res : ScaleUpdateResult)
    (rank : Node → ℕ)
    (hrank : ∀ e ∈ g.edges, rank e.origin < rank e.dest ∧
      rank e.dest ≤ g.edges.length)
    (hdest : (g.edges.map (fun e => e.dest)).Nodup)
    (hbeg : ∀ b ∈ g.beginning, ∀ e ∈ g.edges, e.dest ≠ b)
    (hbv : (bv.map (fun p => p.1)).Nodup)
    (hok : setUpdateScalesGraph g params bv [] = .ok res) :
    (∀ b ∈ bv, g.beginning.contains b.1 = true →
      aGet res.values b.1 = some ((evalNum b.2.1 params).1.getD 0, b.2.2)) ∧
    (∀ o d w, (o, d, w) ∈ res.edges → ∀ x : Qty,
      aGet res.values o = some x → aGet res.values d = some (x.1 * w, x.2)) ∧
    (∀ n, (∀ b ∈ bv, g.beginning.contains b.1 = true →
        ¬ Relation.ReflTransGen (eRelW res.edges) b.1 n) →
      aGet res.values n = none) ∧
    res.edges.map (fun t => (t.1, t.2.1)) =
      g.edges.map (fun e => (e.origin, e.dest)) := by
  unfold setUpdateScalesGraph at hok
  by_cases hchk : ((g.nodes.filter (fun n => !g.beginning.contains n)).filter
      (fun n => (bv.map (fun p => p.1)).contains n)).isEmpty = false
  · rw [if_pos hchk] at hok
    cases hok
  · rw [if_neg hchk] at hok
    cases hevB : evalBeginnings params (bv.filter (fun p => g.beginning.contains p.1)) [] with
    | error e => rw [hevB] at hok; cases hok
    | ok vals0 =>
      rw [hevB] at hok
      dsimp only at hok
      cases hres : resolveScaleEdges params g.edges with
      | error e => rw [hres] at hok; cases hok
      | ok E' =>
        rw [hres] at hok
        dsimp only at hok
        injection hok with hok
        subst hok
        dsimp only
        -- transfer the structural hypotheses to the resolved edges
        have hshape := resolveScaleEdges_shape params g.edges E' hres
        have hlen : E'.length = g.edges.length := by
          have h1 := congrArg List.length hshape
          simpa using h1
        have hd' : (E'.map (fun t => t.2.1)).Nodup := by
          have h1 : E'.map (fun t => t.2.1) =
              (E'.map (fun t => (t.1, t.2.1))).map (fun p => p.2) := by
            rw [List.map_map]
            rfl
          rw [h1, hshape, List.map_map]
          exact hdest
        have hmemE' : ∀ t ∈ E', ∃ e ∈ g.edges, e.origin = t.1 ∧ e.dest = t.2.1 := by
          intro t ht
          have hmem : (t.1, t.2.1) ∈ g.edges.map (fun e => (e.origin, e.dest)) := by
            rw [← hshape]
            exact List.mem_map.mpr ⟨t, ht, rfl⟩
          obtain ⟨e, he, hee⟩ := List.mem_map.mp hmem
          simp only [Prod.mk.injEq] at hee
          exact ⟨e, he, hee.1, hee.2⟩
        have hr' : ∀ t ∈ E', rank t.1 < rank t.2.1 ∧ rank t.2.1 ≤ E'.length := by
          intro t ht
          obtain ⟨e, he, h1, h2⟩ := hmemE' t ht
          have h3 := hrank e he
          constructor
          · rw [← h1, ← h2]
            exact h3.1
          · rw [← h2, hlen]
            exact h3.2
        have hbeg' : ∀ b ∈ g.beginning, ∀ t ∈ E', t.2.1 ≠ b := by
          intro b hb t ht hcontra
          obtain ⟨e, he, _, h2⟩ := hmemE' t ht
          exact hbeg b hb e he (h2.trans hcontra)
        have hdest_reach : ∀ f x, Relation.TransGen (eRelW E') f x →
            ∃ t ∈ E', t.2.1 = x := by
          intro f x hfx
          obtain ⟨u, _, hux⟩ := Relation.TransGen.tail'_iff.mp hfx
          obtain ⟨w, hw⟩ := hux
          exact ⟨(u, x, w), hw, rfl⟩
        -- facts about the defined beginning nodes
        have hdefsub : ∀ p ∈ bv.filter (fun p => g.beginning.contains p.1),
            p ∈ bv ∧ p.1 ∈ g.beginning := by
          intro p hp
          refine ⟨(List.mem_filter.mp hp).1, ?_⟩
          exact contains_true_iff.mp (List.mem_filter.mp hp).2
        have hdefnd : ((bv.filter (fun p => g.beginning.contains p.1)).map
            (fun p => p.1)).Nodup :=
          List.Nodup.sublist ((List.filter_sublist bv).map _) hbv
        have hV1 := evalBeginnings_written params _ [] vals0 hevB hdefnd
        have hV2 : ∀ x, aGet vals0 x ≠ none →
            ∃ b ∈ bv.filter (fun p => g.beginning.contains p.1), b.1 = x := by
          intro x hx
          rcases evalBeginnings_bound params _ [] vals0 hevB x hx with h1 | h
          · exact absurd rfl h1
          · exact h
        have hkey_beg : ∀ f ∈ (bv.filter (fun p => g.beginning.contains p.1)).map
            (fun p => p.1), f ∈ g.beginning := by
          intro f hf
          obtain ⟨b, hb, hbf⟩ := List.mem_map.mp hf
          exact hbf ▸ (hdefsub b hb).2
        -- premises of the propagation invariant
        have hval : ∀ f ∈ (bv.filter (fun p => g.beginning.contains p.1)).map
            (fun p => p.1), aGet vals0 f ≠ none := by
          intro f hf
          obtain ⟨b, hb, hbf⟩ := List.mem_map.mp hf
          rw [← hbf, hV1 b hb]
          simp
        have hfresh : ∀ f ∈ (bv.filter (fun p => g.beginning.contains p.1)).map
            (fun p => p.1), ∀ x, Relation.TransGen (eRelW E') f x →
            aGet vals0 x = none := by
          intro f _ x hfx
          cases hvx : aGet vals0 x with
          | none => rfl
          | some q =>
            exfalso
            obtain ⟨b, hb, hbx⟩ := hV2 x (by rw [hvx]; simp)
            obtain ⟨t, htE, htd⟩ := hdest_reach f x hfx
            exact hbeg' x (hbx ▸ (hdefsub b hb).2) t htE htd
        have hfuel : ∀ f ∈ (bv.filter (fun p => g.beginning.contains p.1)).map
            (fun p => p.1), (∃ e ∈ E', e.1 = f ∨ e.2.1 = f) →
            E'.length + 1 ≤ (g.edges.length + 1) + rank f := by
          intro f _ _
          rw [hlen]
          omega
        have hinv : ∀ o d w, (o, d, w) ∈ E' → o ∉ ([] : List Node) →
            o ∉ (bv.filter (fun p => g.beginning.contains p.1)).map (fun p => p.1) →
            ∀ x : Qty, aGet vals0 o = some x → aGet vals0 d = some (x.1 * w, x.2) := by
          intro o d w _ _ ho x hx
          exfalso
          obtain ⟨b, hb, hbo⟩ := hV2 o (by rw [hx]; simp)
          exact ho (List.mem_map.mpr ⟨b, hb, hbo⟩)
        have hpair : ∀ f ∈ (bv.filter (fun p => g.beginning.contains p.1)).map
            (fun p => p.1), ∀ f' ∈ (bv.filter (fun p => g.beginning.contains p.1)).map
            (fun p => p.1), ¬ Relation.TransGen (eRelW E') f f' := by
          intro f _ f' hf' ht
          obtain ⟨t, htE, htd⟩ := hdest_reach f f' ht
          exact hbeg' f' (hkey_beg f' hf') t htE htd
        obtain ⟨fr, inv, mono, bound⟩ := computeScaled_spec E' rank hd' hr'
          (g.edges.length + 1)
          ((bv.filter (fun p => g.beginning.contains p.1)).map (fun p => p.1))
          vals0 [] hval hfresh hfuel hinv hpair hdefnd
        refine ⟨?_, ?_, ?_, hshape⟩
        · -- (a) every defined beginning keeps its evaluated value and unit
          intro b hb hcont
          have hbdef : b ∈ bv.filter (fun p => g.beginning.contains p.1) :=
            List.mem_filter.mpr ⟨hb, hcont⟩
          have hnr : ∀ f ∈ (bv.filter (fun p => g.beginning.contains p.1)).map
              (fun p => p.1), ¬ Relation.TransGen (eRelW E') f b.1 := by
            intro f _ ht
            obtain ⟨t, htE, htd⟩ := hdest_reach f b.1 ht
            exact hbeg' b.1 (contains_true_iff.mp hcont) t htE htd
          rw [fr b.1 hnr]
          exact hV1 b hbdef
        · -- (b) the propagation recurrence
          intro o d w hE x hx
          exact inv o d w hE (List.not_mem_nil o) x hx
        · -- (c) unreachable nodes stay without a value
          intro n hn
          cases hvn : aGet (computeScaled E' (g.edges.length + 1) vals0
              ((bv.filter (fun p => g.beginning.contains p.1)).map (fun p => p.1))) n with
          | none => rfl
          | some q =>
            exfalso
            rcases bound n (by rw [hvn]; simp) with h1 | ⟨f, hf, hrfx⟩
            · obtain ⟨b, hb, hbx⟩ := hV2 n h1
              exact hn b (hdefsub b hb).1 (List.mem_filter.mp hb).2
                (hbx ▸ Relation.ReflTransGen.refl)
            · obtain ⟨b, hb, hbf⟩ := List.mem_map.mp hf
              exact hn b (hdefsub b hb).1 (List.mem_filter.mp hb).2
                (hbf ▸ hrfx)

section ScalesConcrete

set_option allowUnsafeReducibility true

attribute [local semireducible] Rat.add Rat.mul Rat.sub Rat.inv

/-- Scales graph with two chains: A→B (scale 2) and C→D (scale 3); A and C
are beginning nodes. -/
def exScaleG : ScalesGraph :=
  { edges := [⟨"A", "B", none, some 2⟩, ⟨"C", "D", none, some 3⟩]
    nodes := ["A", "B", "C", "D"]
    beginning := ["A", "C"] }

/-- Topological rank for `exScaleG`. -/
def exScaleRank (n : Node) : ℕ := if n = "B" ∨ n = "D" then 1 else 0

/-- The full outcome of updating `exScaleG` with the single beginning value
A = 5 kg: A and B get values, C and D get none. -/
def exScaleRes : ScaleUpdateResult :=
  { values := [("A", (5, "kg")), ("B", (10, "kg"))]
    edges := [("A", "B", 2), ("C", "D", 3)] }

theorem scale_propagation_correct_witness :
    ((∀ e ∈ exScaleG.edges, exScaleRank e.origin < exScaleRank e.dest ∧
        exScaleRank e.dest ≤ exScaleG.edges.length) ∧
      (exScaleG.edges.map (fun e => e.dest)).Nodup ∧
      (∀ b ∈ exScaleG.beginning, ∀ e ∈ exScaleG.edges, e.dest ≠ b) ∧
      (([("A", PExpr.pnum 5, "kg")] : List (Node × PExpr × String)).map
        (fun p => p.1)).Nodup ∧
      setUpdateScalesGraph exScaleG [] [("A", PExpr.pnum 5, "kg")] [] =
        .ok exScaleRes) ∧
    ((∀ b ∈ ([("A", PExpr.pnum 5, "kg")] : List (Node × PExpr × String)),
        exScaleG.beginning.contains b.1 = true →
        aGet exScaleRes.values b.1 =
          some ((evalNum b.2.1 []).1.getD 0, b.2.2)) ∧
      (∀ o d w, (o, d, w) ∈ exScaleRes.edges → ∀ x : Qty,
        aGet exScaleRes.values o = some x →
        aGet exScaleRes.values d = some (x.1 * w, x.2)) ∧
      (∀ n, (∀ b ∈ ([("A", PExpr.pnum 5, "kg")] : List (Node × PExpr × String)),
          exScaleG.beginning.contains b.1 = true →
          ¬ Relation.ReflTransGen (eRelW exScaleRes.edges) b.1 n) →
        aGet exScaleRes.values n = none) ∧
      exScaleRes.edges.map (fun t => (t.1, t.2.1)) =
        exScaleG.edges.map (fun e => (e.origin, e.dest))) :=
  ⟨⟨by decide, by decide, by decide, by decide, by decide⟩,
    scale_propagation_correct exScaleG [] [("A", PExpr.pnum 5, "kg")] exScaleRes
      exScaleRank (by decide) (by decide) (by decide) (by decide) (by decide)⟩

/-- **C6 (counterexample to the "reported" part).**  Updating `exScaleG` with
only A defined succeeds, returning the complete output of
`set_update_scales_graph`: the value map (with C and D absent, not zero) and
the resolved edge weights.  Nothing in the output reports the nodes that
stayed unset — the function has no issue/report channel at all. -/
theorem scale_unset_nodes_not_reported :
    setUpdateScalesGraph exScaleG [] [("A", PExpr.pnum 5, "kg")] [] =
        .ok exScaleRes ∧
      aGet exScaleRes.values "C" = none ∧
      aGet exScaleRes.values "D" = none ∧
      aGet exScaleRes.values "B" = some (10, "kg") := by
  refine ⟨by decide, by decide, by decide, by decide⟩

end ScalesConcrete

end NisBackend
